import Mathlib

/-!
Propagation core of opentracing-go.

A shallow embedding of `standardtracer/standardcontext.go` (the context model)
and of `utils.go` (the HTTP header codec), followed by the properties proved
about them.

Conventions of the embedding:

* a Go `string` is a sequence of bytes (`GoString`);
* a Go `map` is the list of its entries, written in the order in which the
  `range` loop over it visits them (Go leaves that order unspecified, so a
  statement quantified over all such lists covers every order); its keys are
  pairwise distinct (`WF`);
* maps are reference values: the attribute maps of contexts live in a `Heap`
  and a context holds a reference, `none` being the nil map;
* `int64` values are integers; the only arithmetic on them is `% 64`, Go's
  truncated remainder (`Int.tmod`);
* the capabilities the code receives (`randomID`, `SpanPropagator`) are
  parameters.
-/

namespace OpenTracing

/-! ## Go values -/

/-- A Go string: an immutable sequence of bytes. -/
abbrev GoString := List (Fin 256)

/-- The bytes of an ASCII literal. -/
def str (s : String) : GoString := s.toList.map (fun c => Fin.ofNat c.toNat)

/-- Map read `m[k]`: the value stored under `k`, if any. -/
def lookup {β : Type} (k : GoString) : List (GoString × β) → Option β
  | [] => none
  | (k', v') :: es => if k' = k then some v' else lookup k es

/-- Map write `m[k] = v`: replaces the value of an existing key, adds a new
entry otherwise. -/
def upsert {β : Type} (k : GoString) (v : β) : List (GoString × β) → List (GoString × β)
  | [] => [(k, v)]
  | (k', v') :: es => if k' = k then (k, v) :: es else (k', v') :: upsert k v es

/-- Map removal `delete(m, k)`. -/
def remove {β : Type} (k : GoString) : List (GoString × β) → List (GoString × β)
  | [] => []
  | (k', v') :: es => if k' = k then es else (k', v') :: remove k es

/-- The keys of a map, in visiting order. -/
def keys {β : Type} (m : List (GoString × β)) : List GoString := m.map Prod.fst

/-- Well-formedness of a map: no key occurs twice. -/
def WF {β : Type} (m : List (GoString × β)) : Prop := (keys m).Nodup

instance {β : Type} (m : List (GoString × β)) : Decidable (WF m) := by
  unfold WF; infer_instance

/-! ## The context model (`standardtracer/standardcontext.go`) -/

/-- A `map[string]string`. -/
abbrev TextMap := List (GoString × GoString)

/-- The store of allocated maps; a map reference is an index into it. -/
structure Heap where
  maps : List TextMap

/-- A map-typed variable: `none` is the nil map, `some a` the map at address `a`. -/
abbrev MapRef := Option Nat

/-- The entries a `range` loop over the referenced map visits (none for nil). -/
def Heap.entries (hp : Heap) (r : MapRef) : TextMap :=
  match r with
  | none => []
  | some a => (hp.maps[a]?).getD []

/-- Built-in `len(m)`; 0 for the nil map. -/
def Heap.len (hp : Heap) (r : MapRef) : Nat := (hp.entries r).length

/-- Built-in `make(map[string]string, n)`: allocates a new empty map. The size
hint has no observable effect. -/
def Heap.make (hp : Heap) (_hint : Nat) : Heap × Nat :=
  ({ maps := hp.maps ++ [[]] }, hp.maps.length)

/-- Assignment `m[k] = v` through the (non-nil) reference `a`. -/
def Heap.assign (hp : Heap) (a : Nat) (k v : GoString) : Heap :=
  { maps := hp.maps.set a (upsert k v (hp.entries (some a))) }

/-- Built-in `delete(m, k)` through the (non-nil) reference `a`. -/
def Heap.delete (hp : Heap) (a : Nat) (k : GoString) : Heap :=
  { maps := hp.maps.set a (remove k (hp.entries (some a))) }

/-- The `locker` struct: the embedded `sync.RWMutex`, of which the sequential
model keeps the number of read locks held, and the attribute map. -/
structure locker where
  readers : Nat
  traceAttrs : MapRef
deriving DecidableEq

/-- `locker.RLock()`. -/
def locker.RLock (l : locker) : locker := { l with readers := l.readers + 1 }

/-- `locker.RUnlock()`. -/
def locker.RUnlock (l : locker) : locker := { l with readers := l.readers - 1 }

/-- The `StandardContext` struct. -/
structure StandardContext where
  TraceID : Int
  SpanID : Int
  ParentSpanID : Int
  Sampled : Bool
  mu : locker
deriving DecidableEq

/-- The state of the process-wide random-id source: the values it will hand
out, in order. The generator itself is not part of the sources read here, so
it is a parameter of everything below. -/
abbrev IDSource := Nat → Int

/-- One call of `randomID()`: the next value and the advanced source. -/
def randomID (src : IDSource) : Int × IDSource := (src 0, fun n => src (n + 1))

/-- What a constructor call leaves behind: the context it returns, the
receiver as the call left it, the heap and the random-id source. -/
structure Built where
  ctx : StandardContext
  recv : StandardContext
  heap : Heap
  src : IDSource

/-- The expression `randomID()%64 == 0` on an `int64`. -/
def sampledFromID (r : Int) : Bool := r.tmod 64 == 0

/-- `NewRootStandardContext`. The fields of the composite literal are
evaluated in source order: three `randomID()` calls, then `make`. -/
def NewRootStandardContext (hp : Heap) (src : IDSource) : StandardContext × Heap × IDSource :=
  let (traceID, src1) := randomID src
  let (spanID, src2) := randomID src1
  let (r, src3) := randomID src2
  let (hp1, attrs) := hp.make 0
  ({ TraceID := traceID, SpanID := spanID, ParentSpanID := 0,
     Sampled := sampledFromID r,
     mu := { readers := 0, traceAttrs := some attrs } }, hp1, src3)

/-- The loop `for k, v := range c.mu.traceAttrs { newTags[k] = v }`. -/
def copyAttrs (newTags : Nat) : TextMap → Heap → Heap
  | [], hp => hp
  | (k, v) :: es, hp => copyAttrs newTags es (hp.assign newTags k v)

/-- `(*StandardContext).NewChild`. -/
def NewChild (c : StandardContext) (hp : Heap) (src : IDSource) : Built :=
  let c1 := { c with mu := c.mu.RLock }
  let (hp1, newTags) := hp.make (hp.len c1.mu.traceAttrs)
  let hp2 := copyAttrs newTags (hp1.entries c1.mu.traceAttrs) hp1
  let c2 := { c1 with mu := c1.mu.RUnlock }
  let (spanID, src1) := randomID src
  { ctx := { TraceID := c2.TraceID, SpanID := spanID, ParentSpanID := c2.SpanID,
             Sampled := c2.Sampled,
             mu := { readers := 0, traceAttrs := some newTags } },
    recv := c2, heap := hp2, src := src1 }

/-! ## Go standard library functions used by the header codec

Transcribed from the Go standard library (`strings`, `net/url`,
`net/textproto`, `net/http`), restricted to the modes the codec uses. -/

/-- The byte of an ASCII character. -/
def ch (c : Char) : Fin 256 := Fin.ofNat c.toNat

/-- `strings.HasPrefix`: `len(s) >= len(p) && s[:len(p)] == p`. -/
def HasPrefix (s p : GoString) : Bool := decide (p.length ≤ s.length ∧ s.take p.length = p)

/-- `strings.TrimPrefix`: `s[len(p):]` when `s` starts with `p`, else `s`. -/
def TrimPrefix (s p : GoString) : GoString := if HasPrefix s p then s.drop p.length else s

/-- Letters and digits: the first test of `url.shouldEscape`. -/
def isAlnum (c : Fin 256) : Bool :=
  (ch 'a' ≤ c && c ≤ ch 'z') || (ch 'A' ≤ c && c ≤ ch 'Z') || (ch '0' ≤ c && c ≤ ch '9')

/-- `url.shouldEscape(c, encodeQueryComponent)`: only letters, digits and
`-`, `_`, `.`, `~` are left as they are. -/
def shouldEscape (c : Fin 256) : Bool :=
  if isAlnum c then false
  else if c = ch '-' ∨ c = ch '_' ∨ c = ch '.' ∨ c = ch '~' then false
  else true

/-- The table `upperhex = "0123456789ABCDEF"`, indexed. -/
def upperhex (n : Nat) : Fin 256 := (str "0123456789ABCDEF").getD n 0

/-- `url.QueryEscape`: a space becomes `+`, a byte that `shouldEscape` becomes
`%` and two upper-case hex digits (`c>>4`, `c&15`), any other byte is copied.
(The early return of the source for a string with nothing to escape is the
same function.) -/
def QueryEscape : GoString → GoString
  | [] => []
  | c :: s =>
    if c = ch ' ' then ch '+' :: QueryEscape s
    else if shouldEscape c then
      ch '%' :: upperhex (c.val >>> 4) :: upperhex (c.val &&& 15) :: QueryEscape s
    else c :: QueryEscape s

/-- `url.ishex`. -/
def ishex (c : Fin 256) : Bool :=
  (ch '0' ≤ c && c ≤ ch '9') || (ch 'a' ≤ c && c ≤ ch 'f') || (ch 'A' ≤ c && c ≤ ch 'F')

/-- `url.unhex`. -/
def unhex (c : Fin 256) : Nat :=
  if ch '0' ≤ c ∧ c ≤ ch '9' then c.val - 48
  else if ch 'a' ≤ c ∧ c ≤ ch 'f' then c.val - 97 + 10
  else if ch 'A' ≤ c ∧ c ≤ ch 'F' then c.val - 65 + 10
  else 0

/-- First pass of `url.unescape`: every `%` must be followed by two hex
digits. Returns the text of the `EscapeError` (at most three bytes starting
at the offending `%`), or `none` when the string is well-formed. -/
def checkEscapes : GoString → Option GoString
  | [] => none
  | c :: s =>
    if c = ch '%' then
      match s with
      | a :: b :: t => if ishex a && ishex b then checkEscapes t else some [c, a, b]
      | _ => some (c :: s)
    else checkEscapes s

/-- Second pass of `url.unescape` in query mode: `%XY` becomes the byte
`unhex(X)<<4 | unhex(Y)`, `+` becomes a space. -/
def decodeEscapes : GoString → GoString
  | [] => []
  | c :: s =>
    if c = ch '%' then
      match s with
      | a :: b :: t => Fin.ofNat ((unhex a <<< 4) ||| unhex b) :: decodeEscapes t
      | _ => []
    else if c = ch '+' then ch ' ' :: decodeEscapes s
    else c :: decodeEscapes s

/-- The result of `url.QueryUnescape`: the decoded string with a nil error,
or an `EscapeError`. -/
inductive Unescaped where
  | ok (s : GoString)
  | error (err : GoString)
deriving DecidableEq

/-- `url.QueryUnescape`. -/
def QueryUnescape (s : GoString) : Unescaped :=
  match checkEscapes s with
  | some e => .error e
  | none => .ok (decodeEscapes s)

/-- `textproto.validHeaderFieldByte`: the token characters of RFC 7230. -/
def validHeaderFieldByte (c : Fin 256) : Bool :=
  isAlnum c ||
    [ch '!', ch '#', ch '$', ch '%', ch '&', 39, ch '*', ch '+', ch '-', ch '.',
     ch '^', ch '_', 96, ch '|', ch '~'].contains c

/-- The rewriting loop of `textproto.canonicalMIMEHeaderKey`: upper case at
the start and after each `-`, lower case elsewhere. -/
def canonLoop (upper : Bool) : GoString → GoString
  | [] => []
  | c :: s =>
    let c1 : Fin 256 :=
      if upper && (ch 'a' ≤ c && c ≤ ch 'z') then c - 32
      else if !upper && (ch 'A' ≤ c && c ≤ ch 'Z') then c + 32
      else c
    c1 :: canonLoop (c1 == ch '-') s

/-- `textproto.CanonicalMIMEHeaderKey` (Go 1.6 and later): a key holding a
byte that is not a token character is returned unchanged; any other key is put
in canonical form. The quick scan of the source for an already canonical key
and its table of interned common names return the same string. -/
def CanonicalMIMEHeaderKey (s : GoString) : GoString :=
  if s.all validHeaderFieldByte then canonLoop true s else s

/-- An allocated `http.Header`, a `map[string][]string`. -/
abbrev Header := List (GoString × List GoString)

/-- `http.Header.Add`: `key = CanonicalMIMEHeaderKey(key); h[key] = append(h[key], value)`. -/
def Header.Add (h : Header) (key value : GoString) : Header :=
  let key := CanonicalMIMEHeaderKey key
  upsert key ((lookup key h).getD [] ++ [value]) h

/-! ## The header codec (`utils.go`) -/

/-- `ContextIDHTTPHeaderPrefix`. -/
def ContextIDHTTPHeaderPrefix : GoString := str "Open-Tracing-Context-Id-"

/-- `TagsHTTPHeaderPrefix`. -/
def TagsHTTPHeaderPrefix : GoString := str "Open-Tracing-Trace-Tags-"

/-- A Go `error` value: the `url.EscapeError` of the decoding step, or an
error of the propagator's own. -/
inductive GoError (E : Type) where
  | EscapeError (s : GoString)
  | other (e : E)
deriving DecidableEq

/-- The `SpanPropagator` capability, for the two methods the codec calls. A
returned `Span` or `error` may be nil (`none`). -/
structure SpanPropagator (Span E : Type) where
  PropagateSpanAsText : Span → TextMap × TextMap
  JoinTraceFromText : GoString → TextMap → TextMap → Option Span × Option (GoError E)

/-- One loop of `PropagateSpanInHeader`:
`for headerSuffix, val := range m { h.Add(pfx+headerSuffix, url.QueryEscape(val)) }`. -/
def addAll (pfx : GoString) : TextMap → Header → Header
  | [], h => h
  | (headerSuffix, val) :: m, h =>
    addAll pfx m (Header.Add h (pfx ++ headerSuffix) (QueryEscape val))

/-- `PropagateSpanInHeader`: the header collection `h` after the call. -/
def PropagateSpanInHeader {Span E : Type} (sp : Span) (h : Header)
    (propagator : SpanPropagator Span E) : Header :=
  let (contextIDMap, tagsMap) := propagator.PropagateSpanAsText sp
  addAll TagsHTTPHeaderPrefix tagsMap (addAll ContextIDHTTPHeaderPrefix contextIDMap h)

/-- How the loop of `JoinTraceFromHeader` ends. -/
inductive LoopExit where
  | done (contextIDMap tagsMap : TextMap)
  | failed (err : GoString)
  | panicked
deriving DecidableEq

/-- The loop `for key, val := range h` of `JoinTraceFromHeader`, from the maps
built so far. `val[0]` on an empty value list is a run-time panic. -/
def joinLoop : Header → TextMap → TextMap → LoopExit
  | [], contextIDMap, tagsMap => .done contextIDMap tagsMap
  | (key, val) :: h, contextIDMap, tagsMap =>
    if HasPrefix key ContextIDHTTPHeaderPrefix then
      match val with
      | [] => .panicked
      | v0 :: _ =>
        match QueryUnescape v0 with
        | .error err => .failed err
        | .ok unescaped =>
          joinLoop h (upsert (TrimPrefix key ContextIDHTTPHeaderPrefix) unescaped contextIDMap)
            tagsMap
    else if HasPrefix key TagsHTTPHeaderPrefix then
      match val with
      | [] => .panicked
      | v0 :: _ =>
        match QueryUnescape v0 with
        | .error err => .failed err
        | .ok unescaped =>
          joinLoop h contextIDMap (upsert (TrimPrefix key TagsHTTPHeaderPrefix) unescaped tagsMap)
    else joinLoop h contextIDMap tagsMap

/-- One call of `propagator.JoinTraceFromText`, by its arguments. -/
structure JoinCall where
  operationName : GoString
  contextIDMap : TextMap
  tagsMap : TextMap
deriving DecidableEq

/-- A run of `JoinTraceFromHeader`: what it returns (`none` when it panics)
and the calls it made to `propagator.JoinTraceFromText`, in order. -/
structure JoinRun (Span E : Type) where
  returned : Option (Option Span × Option (GoError E))
  calls : List JoinCall

/-- `JoinTraceFromHeader`. -/
def JoinTraceFromHeader {Span E : Type} (operationName : GoString) (h : Header)
    (propagator : SpanPropagator Span E) : JoinRun Span E :=
  match joinLoop h [] [] with
  | .panicked => { returned := none, calls := [] }
  | .failed err => { returned := some (none, some (.EscapeError err)), calls := [] }
  | .done contextIDMap tagsMap =>
    { returned := some (propagator.JoinTraceFromText operationName contextIDMap tagsMap),
      calls := [⟨operationName, contextIDMap, tagsMap⟩] }

/-- A mutation of an attribute map: `m[k] = v` or `delete(m, k)`. -/
inductive AttrOp where
  | set (k v : GoString)
  | del (k : GoString)

/-- A sequence of mutations made through the reference `a`. -/
def applyOps (a : Nat) : List AttrOp → Heap → Heap
  | [], hp => hp
  | .set k v :: ops, hp => applyOps a ops (hp.assign a k v)
  | .del k :: ops, hp => applyOps a ops (hp.delete a k)

/-- A reference held by a live variable: nil, or the address of an allocated map. -/
def Heap.valid (hp : Heap) (r : MapRef) : Bool :=
  match r with
  | none => true
  | some a => decide (a < hp.maps.length)

/-- The zero value of `StandardContext`: its attribute map is nil. -/
def zeroContext : StandardContext :=
  { TraceID := 0, SpanID := 0, ParentSpanID := 0, Sampled := false,
    mu := { readers := 0, traceAttrs := none } }

/-- The value list under a header name, `h[name]`: empty when the name is absent. -/
def Header.values (h : Header) (name : GoString) : List GoString := (lookup name h).getD []

/-- The number of values a header collection holds, over all names. -/
def Header.count (h : Header) : Nat := (h.map (fun e => e.2.length)).sum

/-- The header name `Header.Add` files an entry with the given suffix under. -/
def headerName (pfx suffix : GoString) : GoString := CanonicalMIMEHeaderKey (pfx ++ suffix)

/-- The encoded values of the entries of `m` that are emitted under `name`, in
visiting order. -/
def emittedUnder (pfx : GoString) (m : TextMap) (name : GoString) : List GoString :=
  (m.filter (fun e => headerName pfx e.1 = name)).map (fun e => QueryEscape e.2)

/-- A header name in one of the two namespaces of the codec. -/
def inNamespace (key : GoString) : Bool :=
  HasPrefix key ContextIDHTTPHeaderPrefix || HasPrefix key TagsHTTPHeaderPrefix

/-- A value list with a first value, and that value validly percent-encoded. -/
def firstValid (val : List GoString) : Bool :=
  match val with
  | [] => false
  | v0 :: _ => (checkEscapes v0).isNone

/-- The map the specification describes for one namespace: one entry per
header whose name starts with `pfx`, its key the name with `pfx` stripped
once, its value the decoding of the header's first value. -/
def entriesUnder (pfx : GoString) (h : Header) : TextMap :=
  (h.filter (fun e => HasPrefix e.1 pfx)).map
    (fun e => (TrimPrefix e.1 pfx, decodeEscapes (e.2.headD [])))

/-- A propagator whose identity map has the lower-case suffix `traceid`. -/
def lowerKeyPropagator : SpanPropagator Unit Unit :=
  { PropagateSpanAsText := fun _ => ([(str "traceid", str "1")], []),
    JoinTraceFromText := fun _ _ _ => (some (), none) }

/-- A propagator whose suffixes are in canonical form, with values holding
reserved characters and non-ASCII bytes. -/
def canonicalKeyPropagator : SpanPropagator Unit Unit :=
  { PropagateSpanAsText := fun _ =>
      ([(str "Traceid", str "a b&c=%"), (str "Spanid", str "2")],
       [(str "User", str "alice" ++ [0xC3, 0xA9])]),
    JoinTraceFromText := fun _ _ _ => (some (), none) }

/-- A header collection with an unrelated header and a two-valued tag header. -/
def sampleHeader : Header :=
  [(str "Accept", [str "text/html"]),
   (str "Open-Tracing-Trace-Tags-User", [str "alice", str "bob"])]

/-- The header a single entry becomes when its name is left as it is: the
prefixed name with the encoded value as its only value. -/
def encodedEntry (pfx : GoString) (e : GoString × GoString) : GoString × List GoString :=
  (pfx ++ e.1, [QueryEscape e.2])

/-- A header with only its first value kept. -/
def firstOnly (e : GoString × List GoString) : GoString × List GoString := (e.1, e.2.take 1)

/-- The header collection of the specification's example: one attribute
header with the values `alice` and `bob`. -/
def repeatedHeader : Header := [(str "Open-Tracing-Trace-Tags-user", [str "alice", str "bob"])]

/-- A header collection whose identity header has a malformed first value. -/
def malformedHeader : Header :=
  [(str "Open-Tracing-Trace-Tags-User", [str "alice"]),
   (str "Open-Tracing-Context-Id-Traceid", [str "%zz"])]

/-- A header collection whose only malformed values are outside the reach of
the decoder: under a name in neither namespace, and after a first value. -/
def strayMalformedHeader : Header :=
  [(str "Cookie", [str "100%"]),
   (str "Open-Tracing-Trace-Tags-User", [str "alice", str "%zz"])]

/-- A heap with one allocated attribute map. -/
def sampleHeap : Heap := { maps := [[(str "user", str "alice")]] }

/-- A context whose attribute map is the map of `sampleHeap`. -/
def sampleParent : StandardContext :=
  { TraceID := 7, SpanID := 8, ParentSpanID := 0, Sampled := true,
    mu := { readers := 0, traceAttrs := some 0 } }

/-- A random-id source handing out 100, 101, 102, ... -/
def sampleSource : IDSource := fun n => 100 + n

/-- An update, an insertion and a removal. -/
def sampleOps : List AttrOp :=
  [.set (str "user") (str "bob"), .set (str "role") (str "admin"), .del (str "user")]

/-- What happens between two derivations of a chain: mutations of the current
context's attribute map, and values other callers draw from the random-id
source. -/
structure Step where
  ops : List AttrOp
  drawn : Nat

/-- The mutations of a step, made through the reference `r` (none can be made
through a nil reference without a panic). -/
def mutate (r : MapRef) (ops : List AttrOp) (hp : Heap) : Heap :=
  match r with
  | none => hp
  | some a => applyOps a ops hp

/-- A chain of `NewChild` calls from the context `c`: after the events of each
step, `NewChild` is called on the current context and its result becomes the
current context. Returns the contexts derived, in order. -/
def descend : List Step → StandardContext → Heap → IDSource → List StandardContext
  | [], _, _, _ => []
  | st :: steps, c, hp, src =>
    let b := NewChild c (mutate c.mu.traceAttrs st.ops hp) (fun n => src (n + st.drawn))
    b.ctx :: descend steps b.ctx b.heap b.src

/-- Two steps: mutations and a foreign draw before the first derivation,
nothing before the second. -/
def sampleSteps : List Step := [⟨sampleOps, 1⟩, ⟨[], 0⟩]

/-- A header collection in which an identity header is present with an empty
value list. -/
def emptyValueHeader : Header :=
  [(str "Accept", [str "text/html"]), (str "Open-Tracing-Context-Id-Traceid", [])]

/-- A propagator whose attribute map has two suffixes that differ only in
letter case, visited `user` first. -/
def caseCollidingPropagator : SpanPropagator Unit Unit :=
  { PropagateSpanAsText := fun _ => ([], [(str "user", str "alice"), (str "User", str "bob")]),
    JoinTraceFromText := fun _ _ _ => (some (), none) }

/-- The same maps as `caseCollidingPropagator`, the attribute map visited
`User` first. -/
def caseCollidingPropagatorSwapped : SpanPropagator Unit Unit :=
  { PropagateSpanAsText := fun _ => ([], [(str "User", str "bob"), (str "user", str "alice")]),
    JoinTraceFromText := fun _ _ _ => (some (), none) }

/-- The same maps as `canonicalKeyPropagator`, visited in another order. -/
def canonicalKeyPropagatorSwapped : SpanPropagator Unit Unit :=
  { PropagateSpanAsText := fun _ =>
      ([(str "Spanid", str "2"), (str "Traceid", str "a b&c=%")],
       [(str "User", str "alice" ++ [0xC3, 0xA9])]),
    JoinTraceFromText := fun _ _ _ => (some (), none) }

/-- What the decoder can see of a header collection: the headers in the two
namespaces, each with its first value (`none` for an empty value list). -/
def namespaceView (h : Header) : List (GoString × Option GoString) :=
  (h.filter (fun e => inNamespace e.1)).map (fun e => (e.1, e.2.head?))

/-- A first value that is present and validly percent-encoded. -/
def validFirst (o : Option GoString) : Bool :=
  match o with
  | none => false
  | some v0 => (checkEscapes v0).isNone

/-- A header collection with the namespace headers of `sampleHeader`, visited
in another place, with other later values and a malformed unrelated header. -/
def sampleHeaderVariant : Header :=
  [(str "Open-Tracing-Trace-Tags-User", [str "alice", str "%zz"]),
   (str "Cookie", [str "100%"])]

/-! ## Lemmas on maps and the heap -/

theorem upsert_of_not_mem {β : Type} (k : GoString) (v : β) (m : List (GoString × β))
    (h : k ∉ keys m) : upsert k v m = m ++ [(k, v)] := by
  induction m with
  | nil => rfl
  | cons e m ih =>
    obtain ⟨k', v'⟩ := e
    simp only [keys, List.map_cons, List.mem_cons, not_or] at h
    have hne : ¬ k' = k := fun hk => h.1 hk.symm
    simp only [upsert, hne, if_false, List.cons_append]
    rw [ih (by simpa [keys] using h.2)]

theorem lookup_upsert_self {β : Type} (k : GoString) (v : β) (m : List (GoString × β)) :
    lookup k (upsert k v m) = some v := by
  induction m with
  | nil => simp [upsert, lookup]
  | cons e m ih =>
    obtain ⟨k', v'⟩ := e
    by_cases hk : k' = k
    · simp [upsert, lookup, hk]
    · simp [upsert, lookup, hk, ih]

theorem foldl_upsert_of_wf (es acc : TextMap) (h : WF (acc ++ es)) :
    es.foldl (fun m e => upsert e.1 e.2 m) acc = acc ++ es := by
  induction es generalizing acc with
  | nil => simp
  | cons e es ih =>
    have hnot : e.1 ∉ keys acc := by
      intro hmem
      have hnd : (keys acc ++ e.1 :: keys es).Nodup := by simpa [WF, keys] using h
      exact (List.nodup_append.1 hnd).2.2 hmem (List.mem_cons_self _ _)
    simp only [List.foldl_cons]
    rw [upsert_of_not_mem _ _ _ hnot, ih (acc ++ [(e.1, e.2)]) (by simpa using h)]
    simp

theorem Heap.entries_make (hp : Heap) (n : Nat) (r : MapRef) :
    (hp.make n).1.entries r = hp.entries r := by
  cases r with
  | none => rfl
  | some a =>
    simp only [Heap.entries, Heap.make]
    by_cases ha : a < hp.maps.length
    · rw [List.getElem?_append_left ha]
    · have hle : hp.maps.length ≤ a := Nat.le_of_not_lt ha
      rw [List.getElem?_append_right hle, List.getElem?_eq_none hle]
      cases a - hp.maps.length <;> simp

theorem Heap.entries_assign_ne (hp : Heap) (a : Nat) (k v : GoString) (r : MapRef)
    (h : r ≠ some a) : (hp.assign a k v).entries r = hp.entries r := by
  cases r with
  | none => rfl
  | some b =>
    have hab : a ≠ b := fun e => h (by rw [e])
    simp [Heap.entries, Heap.assign, List.getElem?_set_ne hab]

theorem Heap.entries_delete_ne (hp : Heap) (a : Nat) (k : GoString) (r : MapRef)
    (h : r ≠ some a) : (hp.delete a k).entries r = hp.entries r := by
  cases r with
  | none => rfl
  | some b =>
    have hab : a ≠ b := fun e => h (by rw [e])
    simp [Heap.entries, Heap.delete, List.getElem?_set_ne hab]

theorem Heap.entries_assign_self (hp : Heap) (a : Nat) (k v : GoString)
    (h : a < hp.maps.length) :
    (hp.assign a k v).entries (some a) = upsert k v (hp.entries (some a)) := by
  simp [Heap.entries, Heap.assign, List.getElem?_set_self, h]

theorem Heap.length_assign (hp : Heap) (a : Nat) (k v : GoString) :
    (hp.assign a k v).maps.length = hp.maps.length := by
  simp [Heap.assign]

theorem applyOps_entries_ne (a : Nat) (ops : List AttrOp) (hp : Heap) (r : MapRef)
    (h : r ≠ some a) : (applyOps a ops hp).entries r = hp.entries r := by
  induction ops generalizing hp with
  | nil => rfl
  | cons op ops ih =>
    cases op with
    | set k v => simp only [applyOps]; rw [ih, Heap.entries_assign_ne _ _ _ _ _ h]
    | del k => simp only [applyOps]; rw [ih, Heap.entries_delete_ne _ _ _ _ h]

theorem copyAttrs_entries_ne (c : Nat) (es : TextMap) (hp : Heap) (r : MapRef)
    (h : r ≠ some c) : (copyAttrs c es hp).entries r = hp.entries r := by
  induction es generalizing hp with
  | nil => rfl
  | cons e es ih =>
    obtain ⟨k, v⟩ := e
    simp only [copyAttrs]
    rw [ih, Heap.entries_assign_ne _ _ _ _ _ h]

theorem copyAttrs_length (c : Nat) (es : TextMap) (hp : Heap) :
    (copyAttrs c es hp).maps.length = hp.maps.length := by
  induction es generalizing hp with
  | nil => rfl
  | cons e es ih =>
    obtain ⟨k, v⟩ := e
    simp only [copyAttrs]
    rw [ih, Heap.length_assign]

theorem copyAttrs_entries_self (c : Nat) (es : TextMap) (hp : Heap)
    (h : c < hp.maps.length) :
    (copyAttrs c es hp).entries (some c)
      = es.foldl (fun m e => upsert e.1 e.2 m) (hp.entries (some c)) := by
  induction es generalizing hp with
  | nil => rfl
  | cons e es ih =>
    obtain ⟨k, v⟩ := e
    simp only [copyAttrs, List.foldl_cons]
    rw [ih _ (by rw [Heap.length_assign]; exact h), Heap.entries_assign_self _ _ _ _ h]

theorem Heap.entries_make_new (hp : Heap) (n : Nat) :
    (hp.make n).1.entries (some hp.maps.length) = [] := by
  simp [Heap.entries, Heap.make]

theorem ref_ne_fresh (hp : Heap) (r : MapRef) (h : hp.valid r = true) :
    r ≠ some hp.maps.length := by
  intro e
  subst e
  simp [Heap.valid] at h

/-- The heap and the receiver after `NewChild`, by its parts. -/
theorem NewChild_unfold (P : StandardContext) (hp : Heap) (src : IDSource) :
    (NewChild P hp src).heap
        = copyAttrs hp.maps.length (hp.entries P.mu.traceAttrs)
            (hp.make (hp.len P.mu.traceAttrs)).1
      ∧ (NewChild P hp src).ctx.mu.traceAttrs = some hp.maps.length
      ∧ (NewChild P hp src).recv = P := by
  refine ⟨?_, rfl, rfl⟩
  simp only [NewChild, locker.RLock, Heap.make]
  congr 1
  exact Heap.entries_make hp 0 _

/-! ## Properties of the context model -/

/-- C1: the child returned by `NewChild` has the parent's `TraceID` and
`Sampled`, the parent's `SpanID` as `ParentSpanID`, and as `SpanID` the value
drawn from the random-id source during the call (one value is drawn). -/
theorem NewChild_identity_fields (P : StandardContext) (hp : Heap) (src : IDSource) :
    (NewChild P hp src).ctx.TraceID = P.TraceID
      ∧ (NewChild P hp src).ctx.ParentSpanID = P.SpanID
      ∧ (NewChild P hp src).ctx.Sampled = P.Sampled
      ∧ (NewChild P hp src).ctx.SpanID = (randomID src).1
      ∧ (NewChild P hp src).src = (randomID src).2 :=
  ⟨rfl, rfl, rfl, rfl, rfl⟩

theorem sampledFromID_iff (r : Int) : sampledFromID r = true ↔ (64 : Int) ∣ r := by
  simp [sampledFromID, Int.dvd_iff_tmod_eq_zero]

theorem card_sampled_Ico (a b : Int) :
    ((Finset.Ico a b).filter (fun r => sampledFromID r = true)).card
      = max (⌈(b : ℚ) / ((64 : Int) : ℚ)⌉ - ⌈(a : ℚ) / ((64 : Int) : ℚ)⌉) 0 := by
  have h := Int.Ico_filter_dvd_card a b (r := 64) (by norm_num)
  rw [← h]
  congr 2
  apply Finset.filter_congr
  intro x _
  exact sampledFromID_iff x

/-- C3: `NewChild` leaves the parent as it was (fields, lock, attribute map);
the child's map is a new map, so no sequence of writes and removals through
the child's reference changes the parent's entries, and no such sequence
through the parent's reference changes the child's entries. -/
theorem NewChild_snapshot_isolation (P : StandardContext) (hp : Heap) (src : IDSource)
    (ops : List AttrOp) (hvalid : hp.valid P.mu.traceAttrs = true) :
    (NewChild P hp src).recv = P
      ∧ (NewChild P hp src).heap.entries P.mu.traceAttrs = hp.entries P.mu.traceAttrs
      ∧ (NewChild P hp src).ctx.mu.traceAttrs = some hp.maps.length
      ∧ P.mu.traceAttrs ≠ (NewChild P hp src).ctx.mu.traceAttrs
      ∧ (applyOps hp.maps.length ops (NewChild P hp src).heap).entries P.mu.traceAttrs
          = hp.entries P.mu.traceAttrs
      ∧ (∀ p, P.mu.traceAttrs = some p →
          (applyOps p ops (NewChild P hp src).heap).entries (NewChild P hp src).ctx.mu.traceAttrs
            = (NewChild P hp src).heap.entries (NewChild P hp src).ctx.mu.traceAttrs) := by
  obtain ⟨hheap, hctx, hrecv⟩ := NewChild_unfold P hp src
  have hne := ref_ne_fresh hp _ hvalid
  have hkeep : (NewChild P hp src).heap.entries P.mu.traceAttrs = hp.entries P.mu.traceAttrs := by
    rw [hheap, copyAttrs_entries_ne _ _ _ _ hne, Heap.entries_make]
  refine ⟨hrecv, hkeep, hctx, ?_, ?_, ?_⟩
  · rw [hctx]; exact hne
  · rw [applyOps_entries_ne _ _ _ _ hne, hkeep]
  · intro p hp'
    rw [hctx]
    apply applyOps_entries_ne
    intro e
    apply hne
    rw [hp', ← Option.some.inj e]

/-- C3 at a concrete input: a parent with the attribute `user = alice`, and an
update, an insertion and a removal made through the child's reference. -/
theorem NewChild_snapshot_isolation_witness :
    sampleHeap.valid sampleParent.mu.traceAttrs = true
      ∧ (applyOps sampleHeap.maps.length sampleOps
            (NewChild sampleParent sampleHeap sampleSource).heap).entries
          sampleParent.mu.traceAttrs = [(str "user", str "alice")]
      ∧ (applyOps sampleHeap.maps.length sampleOps
            (NewChild sampleParent sampleHeap sampleSource).heap).entries
          (NewChild sampleParent sampleHeap sampleSource).ctx.mu.traceAttrs
          = [(str "role", str "admin")] :=
  ⟨by decide,
    (NewChild_snapshot_isolation sampleParent sampleHeap sampleSource sampleOps
      (by decide)).2.2.2.2.1.trans (by decide),
    by decide⟩

/-- C4: the child's attribute map holds exactly the entries of the parent's
map at the call; it is an allocated map even when the parent's map is nil, so
it is empty then and a write to it succeeds. -/
theorem NewChild_attrs_copy (P : StandardContext) (hp : Heap) (src : IDSource)
    (hwf : WF (hp.entries P.mu.traceAttrs)) :
    (NewChild P hp src).heap.entries (NewChild P hp src).ctx.mu.traceAttrs
        = hp.entries P.mu.traceAttrs
      ∧ (∀ k, lookup k ((NewChild P hp src).heap.entries (NewChild P hp src).ctx.mu.traceAttrs)
          = lookup k (hp.entries P.mu.traceAttrs))
      ∧ (NewChild P hp src).ctx.mu.traceAttrs = some hp.maps.length
      ∧ (NewChild P hp src).heap.valid (NewChild P hp src).ctx.mu.traceAttrs = true
      ∧ (P.mu.traceAttrs = none →
          (NewChild P hp src).heap.entries (NewChild P hp src).ctx.mu.traceAttrs = [])
      ∧ (∀ k v, lookup k (((NewChild P hp src).heap.assign hp.maps.length k v).entries
          (some hp.maps.length)) = some v) := by
  obtain ⟨hheap, hctx, _⟩ := NewChild_unfold P hp src
  have hlen : hp.maps.length < (hp.make (hp.len P.mu.traceAttrs)).1.maps.length := by
    simp [Heap.make]
  have hlen2 : hp.maps.length < (NewChild P hp src).heap.maps.length := by
    rw [hheap, copyAttrs_length]; exact hlen
  have hcopy : (NewChild P hp src).heap.entries (NewChild P hp src).ctx.mu.traceAttrs
      = hp.entries P.mu.traceAttrs := by
    rw [hctx, hheap, copyAttrs_entries_self _ _ _ hlen, Heap.entries_make_new,
      foldl_upsert_of_wf _ _ (by simpa using hwf)]
    simp
  refine ⟨hcopy, fun k => by rw [hcopy], hctx, ?_, ?_, ?_⟩
  · rw [hctx]; simpa [Heap.valid] using hlen2
  · intro hnil
    rw [hcopy, hnil]; rfl
  · intro k v
    rw [Heap.entries_assign_self _ _ _ _ hlen2, lookup_upsert_self]

/-- C4 at a concrete input: the zero-value context, whose attribute map is
nil; the child's map is allocated and empty. -/
theorem NewChild_attrs_copy_witness :
    WF (sampleHeap.entries zeroContext.mu.traceAttrs)
      ∧ (NewChild zeroContext sampleHeap sampleSource).heap.entries
          (NewChild zeroContext sampleHeap sampleSource).ctx.mu.traceAttrs = []
      ∧ (NewChild zeroContext sampleHeap sampleSource).ctx.mu.traceAttrs = some 1 :=
  ⟨by decide,
    (NewChild_attrs_copy zeroContext sampleHeap sampleSource (by decide)).2.2.2.2.1 rfl,
    (NewChild_attrs_copy zeroContext sampleHeap sampleSource (by decide)).2.2.1⟩

/-- C10: the root context is sampled exactly when the third value drawn from
the random-id source has truncated remainder 0 modulo 64; the first two draws
do not matter; 2^57 of the 2^63 non-negative `int64` values and 2^58 of all
2^64 `int64` values give `true`. -/
theorem NewRootStandardContext_sampled (hp : Heap) (src : IDSource) (t s : Int) :
    ((NewRootStandardContext hp src).1.Sampled = true ↔ (src 2).tmod 64 = 0)
      ∧ (NewRootStandardContext hp (Function.update (Function.update src 0 t) 1 s)).1.Sampled
          = (NewRootStandardContext hp src).1.Sampled
      ∧ ((Finset.Ico (0 : Int) (2 ^ 63)).filter (fun r => sampledFromID r = true)).card = 2 ^ 57
      ∧ ((Finset.Ico (-(2 : Int) ^ 63) (2 ^ 63)).filter (fun r => sampledFromID r = true)).card
          = 2 ^ 58 := by
  refine ⟨?_, ?_, ?_, ?_⟩
  · simp [NewRootStandardContext, randomID, sampledFromID]
  · simp [NewRootStandardContext, randomID, Function.update]
  · have h := card_sampled_Ico 0 (2 ^ 63)
    have e1 : (((2 : Int) ^ 63 : Int) : ℚ) / ((64 : Int) : ℚ) = (((2 : Int) ^ 57 : Int) : ℚ) := by
      norm_num
    have e0 : (((0 : Int)) : ℚ) / ((64 : Int) : ℚ) = (((0 : Int) : Int) : ℚ) := by norm_num
    rw [e1, e0, Int.ceil_intCast, Int.ceil_intCast] at h
    have h2 : (((Finset.Ico (0 : Int) (2 ^ 63)).filter
        (fun r => sampledFromID r = true)).card : Int) = ((2 ^ 57 : Nat) : Int) := by
      rw [h]; norm_num
    exact_mod_cast h2
  · have h := card_sampled_Ico (-(2 : Int) ^ 63) (2 ^ 63)
    have e1 : (((2 : Int) ^ 63 : Int) : ℚ) / ((64 : Int) : ℚ) = (((2 : Int) ^ 57 : Int) : ℚ) := by
      norm_num
    have e0 : (((-(2 : Int) ^ 63 : Int)) : ℚ) / ((64 : Int) : ℚ)
        = (((-(2 : Int) ^ 57 : Int) : Int) : ℚ) := by norm_num
    rw [e1, e0, Int.ceil_intCast, Int.ceil_intCast] at h
    have h2 : (((Finset.Ico (-(2 : Int) ^ 63) (2 ^ 63)).filter
        (fun r => sampledFromID r = true)).card : Int) = ((2 ^ 58 : Nat) : Int) := by
      rw [h]; norm_num
    exact_mod_cast h2

/-- C11: the context returned by `NewRootStandardContext` has `ParentSpanID`
0, the first value drawn as `TraceID`, the second as `SpanID`, and an
allocated attribute map with no entries (a write to it succeeds); the maps
already in the heap are left as they were. -/
theorem NewRootStandardContext_fields (hp : Heap) (src : IDSource) :
    (NewRootStandardContext hp src).1.ParentSpanID = 0
      ∧ (NewRootStandardContext hp src).1.TraceID = src 0
      ∧ (NewRootStandardContext hp src).1.SpanID = src 1
      ∧ (NewRootStandardContext hp src).1.mu.traceAttrs = some hp.maps.length
      ∧ (NewRootStandardContext hp src).2.1.valid
          (NewRootStandardContext hp src).1.mu.traceAttrs = true
      ∧ (NewRootStandardContext hp src).2.1.entries
          (NewRootStandardContext hp src).1.mu.traceAttrs = []
      ∧ (∀ k v, lookup k (((NewRootStandardContext hp src).2.1.assign hp.maps.length k v).entries
          (some hp.maps.length)) = some v)
      ∧ (∀ r, (NewRootStandardContext hp src).2.1.entries r = hp.entries r)
      ∧ (∀ n, (NewRootStandardContext hp src).2.2 n = src (n + 3)) := by
  have hlen : hp.maps.length < (hp.make 0).1.maps.length := by simp [Heap.make]
  refine ⟨rfl, rfl, rfl, rfl, ?_, ?_, ?_, ?_, ?_⟩
  · show (hp.make 0).1.valid (some hp.maps.length) = true
    simpa [Heap.valid] using hlen
  · exact Heap.entries_make_new hp 0
  · intro k v
    show lookup k (((hp.make 0).1.assign hp.maps.length k v).entries (some hp.maps.length))
      = some v
    rw [Heap.entries_assign_self _ _ _ _ hlen, lookup_upsert_self]
  · intro r
    exact Heap.entries_make hp 0 r
  · intro n
    rfl

/-- C12: along a chain of `NewChild` calls from a context `R`, with any
mutations of attribute maps and any foreign draws from the random-id source
in between, every derived context has the `TraceID` and `Sampled` of `R`, and
the `ParentSpanID` of each derived context is the `SpanID` of the context it
was derived from; one context is derived per step. -/
theorem descend_trace_invariant (steps : List Step) (R : StandardContext) (hp : Heap)
    (src : IDSource) :
    (∀ D ∈ descend steps R hp src, D.TraceID = R.TraceID ∧ D.Sampled = R.Sampled)
      ∧ List.Chain (fun P C => C.ParentSpanID = P.SpanID) R (descend steps R hp src)
      ∧ (descend steps R hp src).length = steps.length := by
  induction steps generalizing R hp src with
  | nil => exact ⟨fun D hD => (by cases hD), List.Chain.nil, rfl⟩
  | cons st steps ih =>
    obtain ⟨h1, h2, h3⟩ := ih
      (NewChild R (mutate R.mu.traceAttrs st.ops hp) (fun n => src (n + st.drawn))).ctx
      (NewChild R (mutate R.mu.traceAttrs st.ops hp) (fun n => src (n + st.drawn))).heap
      (NewChild R (mutate R.mu.traceAttrs st.ops hp) (fun n => src (n + st.drawn))).src
    refine ⟨?_, ?_, ?_⟩
    · intro D hD
      rcases List.mem_cons.1 hD with rfl | hmem
      · exact ⟨rfl, rfl⟩
      · exact h1 D hmem
    · exact List.Chain.cons rfl h2
    · simp only [descend, List.length_cons]
      rw [h3]

/-- C12 at a concrete input: a chain of two derivations from a root context;
the last context has the root's `TraceID` and `Sampled`. -/
theorem descend_trace_invariant_witness :
    (descend sampleSteps (NewRootStandardContext sampleHeap sampleSource).1
        (NewRootStandardContext sampleHeap sampleSource).2.1
        (NewRootStandardContext sampleHeap sampleSource).2.2).map
        (fun D => (D.TraceID, D.SpanID, D.ParentSpanID, D.Sampled))
      = [(100, 104, 101, false), (100, 105, 104, false)]
      ∧ ∀ D ∈ descend sampleSteps (NewRootStandardContext sampleHeap sampleSource).1
          (NewRootStandardContext sampleHeap sampleSource).2.1
          (NewRootStandardContext sampleHeap sampleSource).2.2,
        D.TraceID = (NewRootStandardContext sampleHeap sampleSource).1.TraceID
          ∧ D.Sampled = (NewRootStandardContext sampleHeap sampleSource).1.Sampled :=
  ⟨by decide,
    (descend_trace_invariant sampleSteps (NewRootStandardContext sampleHeap sampleSource).1
      (NewRootStandardContext sampleHeap sampleSource).2.1
      (NewRootStandardContext sampleHeap sampleSource).2.2).1⟩

/-! ## Lemmas on the standard library functions -/

theorem lookup_upsert {β : Type} (k k' : GoString) (v : β) (m : List (GoString × β)) :
    lookup k' (upsert k v m) = if k = k' then some v else lookup k' m := by
  induction m with
  | nil => simp [upsert, lookup]
  | cons e m ih =>
    obtain ⟨k0, v0⟩ := e
    by_cases h0 : k0 = k
    · subst h0
      by_cases h1 : k0 = k' <;> simp [upsert, lookup, h1]
    · by_cases h1 : k0 = k'
      · subst h1
        simp [upsert, lookup, h0, Ne.symm h0]
      · simp [upsert, lookup, h0, h1, ih]

theorem lookup_eq_none_of_not_mem {β : Type} (k : GoString) (m : List (GoString × β))
    (h : k ∉ keys m) : lookup k m = none := by
  induction m with
  | nil => rfl
  | cons e m ih =>
    obtain ⟨k0, v0⟩ := e
    simp only [keys, List.map_cons, List.mem_cons, not_or] at h
    have hne : ¬ k0 = k := fun hk => h.1 hk.symm
    simp only [lookup, hne, if_false]
    exact ih (by simpa [keys] using h.2)

theorem mem_of_lookup {β : Type} (m : List (GoString × β)) (k : GoString) (v : β)
    (h : lookup k m = some v) : (k, v) ∈ m := by
  induction m with
  | nil => cases h
  | cons e m ih =>
    obtain ⟨k0, v0⟩ := e
    by_cases hk : k0 = k
    · subst hk
      simp only [lookup, if_true, Option.some.injEq] at h
      subst h
      exact List.mem_cons_self _ _
    · simp only [lookup, hk, if_false] at h
      exact List.mem_cons_of_mem _ (ih h)

theorem lookup_of_mem_wf {β : Type} (m : List (GoString × β)) (hwf : WF m) (k : GoString)
    (v : β) (h : (k, v) ∈ m) : lookup k m = some v := by
  induction m with
  | nil => cases h
  | cons e m ih =>
    obtain ⟨k0, v0⟩ := e
    have hnd : k0 ∉ keys m ∧ (keys m).Nodup := by simpa [WF, keys] using hwf
    rcases List.mem_cons.1 h with heq | hmem
    · cases heq
      simp [lookup]
    · have hne : ¬ k0 = k := by
        intro hk
        subst hk
        exact hnd.1 (List.mem_map_of_mem Prod.fst hmem)
      simp only [lookup, hne, if_false]
      exact ih hnd.2 hmem

theorem count_upsert (k : GoString) (w : List GoString) (h : Header) :
    Header.count (upsert k w h) + (Header.values h k).length = Header.count h + w.length := by
  induction h with
  | nil => simp [upsert, Header.count, Header.values, lookup]
  | cons e h ih =>
    obtain ⟨k0, v0⟩ := e
    by_cases h0 : k0 = k
    · simp [upsert, Header.count, Header.values, lookup, h0]
      omega
    · simp only [upsert, Header.count, Header.values, lookup, h0, if_false, List.map_cons,
        List.sum_cons] at ih ⊢
      omega

theorem values_Add (h : Header) (key value name : GoString) :
    (Header.Add h key value).values name
      = if CanonicalMIMEHeaderKey key = name then h.values name ++ [value] else h.values name := by
  simp only [Header.Add, Header.values, lookup_upsert]
  by_cases hk : CanonicalMIMEHeaderKey key = name
  · subst hk; simp
  · simp [hk]

theorem lookup_Add_isSome (h : Header) (key value name : GoString)
    (hs : (lookup name h).isSome = true) : (lookup name (Header.Add h key value)).isSome = true := by
  simp only [Header.Add, lookup_upsert]
  split <;> simp [hs]

theorem lookup_Add_ne (h : Header) (key value name : GoString)
    (hk : CanonicalMIMEHeaderKey key ≠ name) :
    lookup name (Header.Add h key value) = lookup name h := by
  simp [Header.Add, lookup_upsert, hk]

theorem count_Add (h : Header) (key value : GoString) :
    (Header.Add h key value).count = h.count + 1 := by
  have := count_upsert (CanonicalMIMEHeaderKey key)
    (h.values (CanonicalMIMEHeaderKey key) ++ [value]) h
  simp only [List.length_append, List.length_singleton] at this
  simp only [Header.Add]
  simp only [Header.values] at this
  omega

theorem values_addAll (pfx : GoString) (m : TextMap) (h : Header) (name : GoString) :
    (addAll pfx m h).values name = h.values name ++ emittedUnder pfx m name := by
  induction m generalizing h with
  | nil => simp [addAll, emittedUnder]
  | cons e m ih =>
    obtain ⟨k, v⟩ := e
    simp only [addAll]
    rw [ih, values_Add]
    by_cases hk : CanonicalMIMEHeaderKey (pfx ++ k) = name
    · simp [emittedUnder, headerName, hk]
    · simp [emittedUnder, headerName, hk]

theorem lookup_addAll_isSome (pfx : GoString) (m : TextMap) (h : Header) (name : GoString)
    (hs : (lookup name h).isSome = true) : (lookup name (addAll pfx m h)).isSome = true := by
  induction m generalizing h with
  | nil => exact hs
  | cons e m ih =>
    obtain ⟨k, v⟩ := e
    exact ih _ (lookup_Add_isSome _ _ _ _ hs)

theorem lookup_addAll_none (pfx : GoString) (m : TextMap) (h : Header) (name : GoString)
    (hn : ∀ e ∈ m, headerName pfx e.1 ≠ name) : lookup name (addAll pfx m h) = lookup name h := by
  induction m generalizing h with
  | nil => rfl
  | cons e m ih =>
    obtain ⟨k, v⟩ := e
    simp only [addAll]
    rw [ih _ (fun e he => hn e (List.mem_cons_of_mem _ he)),
      lookup_Add_ne _ _ _ _ (hn (k, v) (List.mem_cons_self _ _))]

theorem count_addAll (pfx : GoString) (m : TextMap) (h : Header) :
    (addAll pfx m h).count = h.count + m.length := by
  induction m generalizing h with
  | nil => rfl
  | cons e m ih =>
    obtain ⟨k, v⟩ := e
    simp only [addAll, List.length_cons]
    rw [ih, count_Add]
    omega

theorem PropagateSpanInHeader_eq {Span E : Type} (sp : Span) (h : Header)
    (propagator : SpanPropagator Span E) :
    PropagateSpanInHeader sp h propagator
      = addAll TagsHTTPHeaderPrefix (propagator.PropagateSpanAsText sp).2
          (addAll ContextIDHTTPHeaderPrefix (propagator.PropagateSpanAsText sp).1 h) := by
  unfold PropagateSpanInHeader
  rcases propagator.PropagateSpanAsText sp with ⟨a, b⟩
  rfl

theorem mem_emittedUnder (pfx : GoString) (m : TextMap) (k v : GoString) (h : (k, v) ∈ m) :
    QueryEscape v ∈ emittedUnder pfx m (headerName pfx k) := by
  simp only [emittedUnder, List.mem_map, List.mem_filter]
  exact ⟨(k, v), ⟨h, by simp⟩, rfl⟩

theorem headerName_contextID (k : GoString) :
    headerName ContextIDHTTPHeaderPrefix k
      = ContextIDHTTPHeaderPrefix ++ (if k.all validHeaderFieldByte then canonLoop true k else k) := by
  have hp : ContextIDHTTPHeaderPrefix.all validHeaderFieldByte = true := by decide
  have hc : canonLoop true (ContextIDHTTPHeaderPrefix ++ k)
      = ContextIDHTTPHeaderPrefix ++ canonLoop true k := rfl
  simp only [headerName, CanonicalMIMEHeaderKey, List.all_append, hp, Bool.true_and]
  split <;> simp [hc]

theorem headerName_tags (k : GoString) :
    headerName TagsHTTPHeaderPrefix k
      = TagsHTTPHeaderPrefix ++ (if k.all validHeaderFieldByte then canonLoop true k else k) := by
  have hp : TagsHTTPHeaderPrefix.all validHeaderFieldByte = true := by decide
  have hc : canonLoop true (TagsHTTPHeaderPrefix ++ k)
      = TagsHTTPHeaderPrefix ++ canonLoop true k := rfl
  simp only [headerName, CanonicalMIMEHeaderKey, List.all_append, hp, Bool.true_and]
  split <;> simp [hc]

theorem HasPrefix_append (p k : GoString) : HasPrefix (p ++ k) p = true := by
  simp [HasPrefix, List.take_left]

theorem TrimPrefix_append (p k : GoString) : TrimPrefix (p ++ k) p = k := by
  simp [TrimPrefix, HasPrefix_append, List.drop_left]

theorem append_TrimPrefix (p k : GoString) (h : HasPrefix k p = true) :
    p ++ TrimPrefix k p = k := by
  simp only [TrimPrefix, h, if_true]
  have h2 : k.take p.length = p := by
    simp only [HasPrefix, decide_eq_true_eq] at h
    exact h.2
  have h3 := List.take_append_drop p.length k
  rw [h2] at h3
  exact h3

theorem namespaces_disjoint (k : GoString) (h : HasPrefix k ContextIDHTTPHeaderPrefix = true) :
    HasPrefix k TagsHTTPHeaderPrefix = false := by
  simp only [HasPrefix, decide_eq_true_eq] at h
  have hlen : TagsHTTPHeaderPrefix.length = ContextIDHTTPHeaderPrefix.length := by decide
  have hne : ContextIDHTTPHeaderPrefix ≠ TagsHTTPHeaderPrefix := by decide
  simp only [HasPrefix, decide_eq_false_iff_not, not_and]
  intro _ h2
  rw [hlen, h.2] at h2
  exact hne h2

theorem HasPrefix_tags_contextID (k : GoString) :
    HasPrefix (TagsHTTPHeaderPrefix ++ k) ContextIDHTTPHeaderPrefix = false := by
  cases hc : HasPrefix (TagsHTTPHeaderPrefix ++ k) ContextIDHTTPHeaderPrefix with
  | false => rfl
  | true =>
    have := namespaces_disjoint _ hc
    rw [HasPrefix_append] at this
    cases this

theorem HasPrefix_contextID_tags (k : GoString) :
    HasPrefix (ContextIDHTTPHeaderPrefix ++ k) TagsHTTPHeaderPrefix = false :=
  namespaces_disjoint _ (HasPrefix_append _ _)

set_option maxRecDepth 1000000 in
theorem hex_digits (c : Fin 256) :
    ishex (upperhex (c.val >>> 4)) = true ∧ ishex (upperhex (c.val &&& 15)) = true
      ∧ (Fin.ofNat ((unhex (upperhex (c.val >>> 4)) <<< 4) ||| unhex (upperhex (c.val &&& 15)))
          : Fin 256) = c := by
  revert c
  decide

set_option maxRecDepth 1000000 in
theorem unreserved_plain (c : Fin 256) (h : shouldEscape c = false) :
    c ≠ ch '%' ∧ c ≠ ch '+' := by
  revert c
  decide

theorem checkEscapes_cons_plain (c : Fin 256) (s : GoString) (h : c ≠ ch '%') :
    checkEscapes (c :: s) = checkEscapes s := by
  rcases s with _ | ⟨a, _ | ⟨b, t⟩⟩ <;> simp [checkEscapes, h]

theorem checkEscapes_cons_hex (a b : Fin 256) (s : GoString) (ha : ishex a = true)
    (hb : ishex b = true) : checkEscapes (ch '%' :: a :: b :: s) = checkEscapes s := by
  rw [checkEscapes]
  simp [ha, hb]

theorem decodeEscapes_cons_plain (c : Fin 256) (s : GoString) (h : c ≠ ch '%')
    (h2 : c ≠ ch '+') : decodeEscapes (c :: s) = c :: decodeEscapes s := by
  rcases s with _ | ⟨a, _ | ⟨b, t⟩⟩ <;> simp [decodeEscapes, h, h2]

theorem decodeEscapes_cons_plus (s : GoString) :
    decodeEscapes (ch '+' :: s) = ch ' ' :: decodeEscapes s := by
  have h1 : ¬ (ch '+' = ch '%') := by decide
  rcases s with _ | ⟨a, _ | ⟨b, t⟩⟩ <;> simp [decodeEscapes, h1]

theorem decodeEscapes_cons_hex (a b : Fin 256) (s : GoString) :
    decodeEscapes (ch '%' :: a :: b :: s)
      = Fin.ofNat ((unhex a <<< 4) ||| unhex b) :: decodeEscapes s := by
  rw [decodeEscapes]
  simp

theorem checkEscapes_QueryEscape (v : GoString) : checkEscapes (QueryEscape v) = none := by
  induction v with
  | nil => rfl
  | cons c v ih =>
    by_cases hsp : c = ch ' '
    · have h1 : ch '+' ≠ ch '%' := by decide
      simp only [QueryEscape, hsp, if_true]
      rw [checkEscapes_cons_plain _ _ h1, ih]
    · by_cases hesc : shouldEscape c = true
      · simp only [QueryEscape, hsp, hesc, if_true, if_false]
        rw [checkEscapes_cons_hex _ _ _ (hex_digits c).1 (hex_digits c).2.1, ih]
      · have hesc2 : shouldEscape c = false := by simpa using hesc
        have h1 := (unreserved_plain c hesc2).1
        simp only [QueryEscape, hsp, hesc2, if_false]
        simp only [Bool.false_eq_true, if_false]
        rw [checkEscapes_cons_plain _ _ h1, ih]

theorem decodeEscapes_QueryEscape (v : GoString) : decodeEscapes (QueryEscape v) = v := by
  induction v with
  | nil => rfl
  | cons c v ih =>
    by_cases hsp : c = ch ' '
    · simp only [QueryEscape, hsp, if_true]
      rw [decodeEscapes_cons_plus, ih]
    · by_cases hesc : shouldEscape c = true
      · simp only [QueryEscape, hsp, hesc, if_true, if_false]
        rw [decodeEscapes_cons_hex, (hex_digits c).2.2, ih]
      · have hesc2 : shouldEscape c = false := by simpa using hesc
        have h1 := (unreserved_plain c hesc2).1
        have h2 := (unreserved_plain c hesc2).2
        simp only [QueryEscape, hsp, hesc2, if_false]
        simp only [Bool.false_eq_true, if_false]
        rw [decodeEscapes_cons_plain _ _ h1 h2, ih]

theorem QueryUnescape_of_valid (v : GoString) (h : checkEscapes v = none) :
    QueryUnescape v = .ok (decodeEscapes v) := by
  simp [QueryUnescape, h]

/-! ## Lemmas on the decoding loop -/

theorem firstValid_iff (val : List GoString) :
    firstValid val = true ↔ ∃ v0 rest, val = v0 :: rest ∧ checkEscapes v0 = none := by
  cases val with
  | nil => simp [firstValid]
  | cons v0 rest => simp [firstValid, Option.isNone_iff_eq_none]

theorem joinLoop_cons_contextID (key v0 : GoString) (rest : List GoString) (h : Header)
    (ids tags : TextMap) (hk : HasPrefix key ContextIDHTTPHeaderPrefix = true)
    (hc : checkEscapes v0 = none) :
    joinLoop ((key, v0 :: rest) :: h) ids tags
      = joinLoop h (upsert (TrimPrefix key ContextIDHTTPHeaderPrefix) (decodeEscapes v0) ids)
          tags := by
  simp [joinLoop, hk, QueryUnescape, hc]

theorem joinLoop_cons_tags (key v0 : GoString) (rest : List GoString) (h : Header)
    (ids tags : TextMap) (hk : HasPrefix key ContextIDHTTPHeaderPrefix = false)
    (ht : HasPrefix key TagsHTTPHeaderPrefix = true) (hc : checkEscapes v0 = none) :
    joinLoop ((key, v0 :: rest) :: h) ids tags
      = joinLoop h ids (upsert (TrimPrefix key TagsHTTPHeaderPrefix) (decodeEscapes v0) tags) := by
  simp [joinLoop, hk, ht, QueryUnescape, hc]

theorem joinLoop_cons_other (key : GoString) (val : List GoString) (h : Header)
    (ids tags : TextMap) (hk : HasPrefix key ContextIDHTTPHeaderPrefix = false)
    (ht : HasPrefix key TagsHTTPHeaderPrefix = false) :
    joinLoop ((key, val) :: h) ids tags = joinLoop h ids tags := by
  simp [joinLoop, hk, ht]

theorem joinLoop_cons_invalid (key v0 err : GoString) (rest : List GoString) (h : Header)
    (ids tags : TextMap) (hin : inNamespace key = true) (hc : checkEscapes v0 = some err) :
    joinLoop ((key, v0 :: rest) :: h) ids tags = .failed err := by
  by_cases hk : HasPrefix key ContextIDHTTPHeaderPrefix = true
  · simp [joinLoop, hk, QueryUnescape, hc]
  · have hk2 : HasPrefix key ContextIDHTTPHeaderPrefix = false := by simpa using hk
    have ht : HasPrefix key TagsHTTPHeaderPrefix = true := by
      simpa [inNamespace, hk2] using hin
    simp [joinLoop, hk2, ht, QueryUnescape, hc]

theorem joinLoop_cons_empty (key : GoString) (h : Header) (ids tags : TextMap)
    (hin : inNamespace key = true) : joinLoop ((key, []) :: h) ids tags = .panicked := by
  by_cases hk : HasPrefix key ContextIDHTTPHeaderPrefix = true
  · simp [joinLoop, hk]
  · have hk2 : HasPrefix key ContextIDHTTPHeaderPrefix = false := by simpa using hk
    have ht : HasPrefix key TagsHTTPHeaderPrefix = true := by
      simpa [inNamespace, hk2] using hin
    simp [joinLoop, hk2, ht]

theorem entriesUnder_cons_of_hasPrefix (pfx key : GoString) (val : List GoString) (h : Header)
    (hk : HasPrefix key pfx = true) :
    entriesUnder pfx ((key, val) :: h)
      = (TrimPrefix key pfx, decodeEscapes (val.headD [])) :: entriesUnder pfx h := by
  simp [entriesUnder, List.filter_cons, hk]

theorem entriesUnder_cons_of_not (pfx key : GoString) (val : List GoString) (h : Header)
    (hk : HasPrefix key pfx = false) :
    entriesUnder pfx ((key, val) :: h) = entriesUnder pfx h := by
  simp [entriesUnder, List.filter_cons, hk]

/-- The loop, when every header in a namespace has a valid first value: it
ends normally with the entries of the two namespaces written into the maps. -/
theorem joinLoop_done (h : Header) (ids tags : TextMap)
    (hall : ∀ e ∈ h, inNamespace e.1 = true → firstValid e.2 = true) :
    joinLoop h ids tags
      = .done ((entriesUnder ContextIDHTTPHeaderPrefix h).foldl (fun m e => upsert e.1 e.2 m) ids)
          ((entriesUnder TagsHTTPHeaderPrefix h).foldl (fun m e => upsert e.1 e.2 m) tags) := by
  induction h generalizing ids tags with
  | nil => rfl
  | cons e h ih =>
    obtain ⟨key, val⟩ := e
    have ih2 := fun ids tags => ih ids tags (fun e he => hall e (List.mem_cons_of_mem _ he))
    by_cases hk : HasPrefix key ContextIDHTTPHeaderPrefix = true
    · have hv := hall (key, val) (List.mem_cons_self _ _) (by simp [inNamespace, hk])
      obtain ⟨v0, rest, rfl, hc⟩ := (firstValid_iff val).1 hv
      rw [joinLoop_cons_contextID _ _ _ _ _ _ hk hc, ih2,
        entriesUnder_cons_of_hasPrefix _ _ _ _ hk,
        entriesUnder_cons_of_not _ _ _ _ (namespaces_disjoint _ hk)]
      rfl
    · have hk2 : HasPrefix key ContextIDHTTPHeaderPrefix = false := by simpa using hk
      by_cases ht : HasPrefix key TagsHTTPHeaderPrefix = true
      · have hv := hall (key, val) (List.mem_cons_self _ _) (by simp [inNamespace, ht])
        obtain ⟨v0, rest, rfl, hc⟩ := (firstValid_iff val).1 hv
        rw [joinLoop_cons_tags _ _ _ _ _ _ hk2 ht hc, ih2,
          entriesUnder_cons_of_hasPrefix _ _ _ _ ht, entriesUnder_cons_of_not _ _ _ _ hk2]
        rfl
      · have ht2 : HasPrefix key TagsHTTPHeaderPrefix = false := by simpa using ht
        rw [joinLoop_cons_other _ _ _ _ _ hk2 ht2, ih2, entriesUnder_cons_of_not _ _ _ _ hk2,
          entriesUnder_cons_of_not _ _ _ _ ht2]

/-- The loop ends normally only if every header in a namespace has a valid
first value. -/
theorem joinLoop_done_valid (h : Header) (ids tags a b : TextMap)
    (hd : joinLoop h ids tags = .done a b) :
    ∀ e ∈ h, inNamespace e.1 = true → firstValid e.2 = true := by
  induction h generalizing ids tags with
  | nil => intro e he; cases he
  | cons e0 h ih =>
    obtain ⟨key, val⟩ := e0
    by_cases hin : inNamespace key = true
    · cases val with
      | nil => rw [joinLoop_cons_empty _ _ _ _ hin] at hd; cases hd
      | cons v0 rest =>
        cases hc : checkEscapes v0 with
        | some err => rw [joinLoop_cons_invalid _ _ _ _ _ _ _ hin hc] at hd; cases hd
        | none =>
          have hrest : ∃ ids2 tags2, joinLoop h ids2 tags2 = .done a b := by
            by_cases hk : HasPrefix key ContextIDHTTPHeaderPrefix = true
            · rw [joinLoop_cons_contextID _ _ _ _ _ _ hk hc] at hd
              exact ⟨_, _, hd⟩
            · have hk2 : HasPrefix key ContextIDHTTPHeaderPrefix = false := by simpa using hk
              have ht : HasPrefix key TagsHTTPHeaderPrefix = true := by
                simpa [inNamespace, hk2] using hin
              rw [joinLoop_cons_tags _ _ _ _ _ _ hk2 ht hc] at hd
              exact ⟨_, _, hd⟩
          obtain ⟨ids2, tags2, hd2⟩ := hrest
          intro e he hine
          rcases List.mem_cons.1 he with rfl | hmem
          · simp [firstValid, hc]
          · exact ih ids2 tags2 hd2 e hmem hine
    · have hin2 : inNamespace key = false := by simpa using hin
      have hk2 : HasPrefix key ContextIDHTTPHeaderPrefix = false := by
        simp only [inNamespace, Bool.or_eq_false_iff] at hin2; exact hin2.1
      have ht2 : HasPrefix key TagsHTTPHeaderPrefix = false := by
        simp only [inNamespace, Bool.or_eq_false_iff] at hin2; exact hin2.2
      rw [joinLoop_cons_other _ _ _ _ _ hk2 ht2] at hd
      intro e he hine
      rcases List.mem_cons.1 he with rfl | hmem
      · rw [hin2] at hine; cases hine
      · exact ih ids tags hd e hmem hine

/-- The loop, when every header in a namespace has a value and one of them has
an invalid first value: it stops with the `EscapeError` of such a header. -/
theorem joinLoop_failed (h : Header) (ids tags : TextMap)
    (hne : ∀ e ∈ h, inNamespace e.1 = true → e.2 ≠ [])
    (hbad : ∃ e ∈ h, inNamespace e.1 = true ∧ firstValid e.2 = false) :
    ∃ err, joinLoop h ids tags = .failed err
      ∧ ∃ e ∈ h, inNamespace e.1 = true ∧ QueryUnescape (e.2.headD []) = .error err := by
  induction h generalizing ids tags with
  | nil => obtain ⟨e, he, _⟩ := hbad; cases he
  | cons e0 h ih =>
    obtain ⟨key, val⟩ := e0
    have hne2 : ∀ e ∈ h, inNamespace e.1 = true → e.2 ≠ [] :=
      fun e he => hne e (List.mem_cons_of_mem _ he)
    have lift : (∃ ids2 tags2, joinLoop ((key, val) :: h) ids tags = joinLoop h ids2 tags2)
        → (∃ e ∈ h, inNamespace e.1 = true ∧ firstValid e.2 = false)
        → ∃ err, joinLoop ((key, val) :: h) ids tags = .failed err
          ∧ ∃ e ∈ (key, val) :: h, inNamespace e.1 = true
            ∧ QueryUnescape (e.2.headD []) = .error err := by
      rintro ⟨ids2, tags2, hstep⟩ hb
      obtain ⟨err, hf, e, he, hin, hq⟩ := ih ids2 tags2 hne2 hb
      exact ⟨err, by rw [hstep, hf], e, List.mem_cons_of_mem _ he, hin, hq⟩
    by_cases hin : inNamespace key = true
    · cases val with
      | nil => exact absurd rfl (hne (key, []) (List.mem_cons_self _ _) hin)
      | cons v0 rest =>
        cases hc : checkEscapes v0 with
        | some err =>
          exact ⟨err, joinLoop_cons_invalid _ _ _ _ _ _ _ hin hc, (key, v0 :: rest),
            List.mem_cons_self _ _, hin, by simp [QueryUnescape, hc]⟩
        | none =>
          have htail : ∃ e ∈ h, inNamespace e.1 = true ∧ firstValid e.2 = false := by
            obtain ⟨e, he, hine, hfv⟩ := hbad
            rcases List.mem_cons.1 he with rfl | hmem
            · simp [firstValid, hc] at hfv
            · exact ⟨e, hmem, hine, hfv⟩
          apply lift _ htail
          by_cases hk : HasPrefix key ContextIDHTTPHeaderPrefix = true
          · exact ⟨_, _, joinLoop_cons_contextID _ _ _ _ _ _ hk hc⟩
          · have hk2 : HasPrefix key ContextIDHTTPHeaderPrefix = false := by simpa using hk
            have ht : HasPrefix key TagsHTTPHeaderPrefix = true := by
              simpa [inNamespace, hk2] using hin
            exact ⟨_, _, joinLoop_cons_tags _ _ _ _ _ _ hk2 ht hc⟩
    · have hin2 : inNamespace key = false := by simpa using hin
      have hk2 : HasPrefix key ContextIDHTTPHeaderPrefix = false := by
        simp only [inNamespace, Bool.or_eq_false_iff] at hin2; exact hin2.1
      have ht2 : HasPrefix key TagsHTTPHeaderPrefix = false := by
        simp only [inNamespace, Bool.or_eq_false_iff] at hin2; exact hin2.2
      have htail : ∃ e ∈ h, inNamespace e.1 = true ∧ firstValid e.2 = false := by
        obtain ⟨e, he, hine, hfv⟩ := hbad
        rcases List.mem_cons.1 he with rfl | hmem
        · rw [hin2] at hine; cases hine
        · exact ⟨e, hmem, hine, hfv⟩
      exact lift ⟨_, _, joinLoop_cons_other _ _ _ _ _ hk2 ht2⟩ htail

/-- The loop reads nothing of a header beyond its first value. -/
theorem joinLoop_firstOnly (h : Header) (ids tags : TextMap) :
    joinLoop (h.map firstOnly) ids tags = joinLoop h ids tags := by
  induction h generalizing ids tags with
  | nil => rfl
  | cons e h ih =>
    obtain ⟨key, val⟩ := e
    cases val with
    | nil => simp [joinLoop, firstOnly, ih]
    | cons v0 rest => simp [joinLoop, firstOnly, ih]

theorem mem_keys_entriesUnder (pfx : GoString) (h : Header) (s : GoString)
    (hs : s ∈ keys (entriesUnder pfx h)) : pfx ++ s ∈ keys h := by
  simp only [keys, entriesUnder, List.map_map, List.mem_map, List.mem_filter,
    Function.comp_apply] at hs
  obtain ⟨e, ⟨he, hk⟩, rfl⟩ := hs
  rw [append_TrimPrefix _ _ hk]
  exact List.mem_map_of_mem Prod.fst he

theorem wf_entriesUnder (pfx : GoString) (h : Header) (hwf : WF h) :
    WF (entriesUnder pfx h) := by
  induction h with
  | nil => simp [WF, keys, entriesUnder]
  | cons e h ih =>
    obtain ⟨key, val⟩ := e
    have hnd : key ∉ keys h ∧ (keys h).Nodup := by simpa [WF, keys] using hwf
    by_cases hk : HasPrefix key pfx = true
    · rw [entriesUnder_cons_of_hasPrefix _ _ _ _ hk]
      have hnot : TrimPrefix key pfx ∉ keys (entriesUnder pfx h) := by
        intro hm
        have := mem_keys_entriesUnder _ _ _ hm
        rw [append_TrimPrefix _ _ hk] at this
        exact hnd.1 this
      have := ih hnd.2
      simp only [WF, keys, List.map_cons, List.nodup_cons] at this ⊢
      exact ⟨hnot, this⟩
    · have hk2 : HasPrefix key pfx = false := by simpa using hk
      rw [entriesUnder_cons_of_not _ _ _ _ hk2]
      exact ih hnd.2

theorem mem_entriesUnder (pfx : GoString) (h : Header) (key : GoString) (val : List GoString)
    (hm : (key, val) ∈ h) (hk : HasPrefix key pfx = true) :
    (TrimPrefix key pfx, decodeEscapes (val.headD [])) ∈ entriesUnder pfx h := by
  simp only [entriesUnder, List.mem_map, List.mem_filter]
  exact ⟨(key, val), ⟨hm, hk⟩, rfl⟩

theorem foldl_upsert_nil_of_wf (es : TextMap) (h : WF es) :
    es.foldl (fun m e => upsert e.1 e.2 m) [] = es := by
  rw [foldl_upsert_of_wf _ _ (by simpa using h)]
  simp

/-- The loop on a well-formed header collection whose headers in the two
namespaces all have a valid first value. -/
theorem joinLoop_of_valid (h : Header) (hwf : WF h)
    (hall : ∀ e ∈ h, inNamespace e.1 = true → firstValid e.2 = true) :
    joinLoop h [] []
      = .done (entriesUnder ContextIDHTTPHeaderPrefix h) (entriesUnder TagsHTTPHeaderPrefix h) := by
  rw [joinLoop_done _ _ _ hall, foldl_upsert_nil_of_wf _ (wf_entriesUnder _ _ hwf),
    foldl_upsert_nil_of_wf _ (wf_entriesUnder _ _ hwf)]

theorem JoinTraceFromHeader_run_of_valid {Span E : Type} (operationName : GoString)
    (h : Header) (propagator : SpanPropagator Span E) (hwf : WF h)
    (hall : ∀ e ∈ h, inNamespace e.1 = true → firstValid e.2 = true) :
    (JoinTraceFromHeader operationName h propagator).calls
        = [⟨operationName, entriesUnder ContextIDHTTPHeaderPrefix h,
            entriesUnder TagsHTTPHeaderPrefix h⟩]
      ∧ (JoinTraceFromHeader operationName h propagator).returned
        = some (propagator.JoinTraceFromText operationName
            (entriesUnder ContextIDHTTPHeaderPrefix h) (entriesUnder TagsHTTPHeaderPrefix h)) := by
  simp [JoinTraceFromHeader, joinLoop_of_valid h hwf hall]

theorem lookup_perm {β : Type} (m1 m2 : List (GoString × β)) (hwf : WF m1)
    (hp : m1.Perm m2) (k : GoString) : lookup k m1 = lookup k m2 := by
  have hwf2 : WF m2 := (List.Perm.nodup_iff (hp.map Prod.fst)).1 hwf
  cases h2 : lookup k m2 with
  | none =>
    cases h1 : lookup k m1 with
    | none => rfl
    | some v =>
      have hm := mem_of_lookup _ _ _ h1
      rw [← h2, lookup_of_mem_wf _ hwf2 _ _ ((List.Perm.mem_iff hp).1 hm)]
  | some v =>
    have hm := mem_of_lookup _ _ _ h2
    exact lookup_of_mem_wf _ hwf _ _ ((List.Perm.mem_iff hp).2 hm)

/-! ## Properties of `JoinTraceFromHeader` -/

/-- C5, as the code has it: when every header in the two namespaces has a
value and the first value of one of them is not validly percent-encoded,
`JoinTraceFromHeader` returns a nil `Span` with the `EscapeError` of such a
header and makes no call to `propagator.JoinTraceFromText`. -/
theorem JoinTraceFromHeader_escape_error {Span E : Type} (operationName : GoString)
    (h : Header) (propagator : SpanPropagator Span E)
    (hne : ∀ e ∈ h, inNamespace e.1 = true → e.2 ≠ [])
    (hbad : ∃ e ∈ h, inNamespace e.1 = true ∧ firstValid e.2 = false) :
    ∃ err, (JoinTraceFromHeader operationName h propagator).returned
          = some (none, some (.EscapeError err))
      ∧ (JoinTraceFromHeader operationName h propagator).calls = []
      ∧ ∃ e ∈ h, inNamespace e.1 = true ∧ QueryUnescape (e.2.headD []) = .error err := by
  obtain ⟨err, hf, hw⟩ := joinLoop_failed h [] [] hne hbad
  refine ⟨err, ?_, ?_, hw⟩
  · simp [JoinTraceFromHeader, hf]
  · simp [JoinTraceFromHeader, hf]

/-- C5 at a concrete input: `malformedHeader`. -/
theorem JoinTraceFromHeader_escape_error_witness :
    (∀ e ∈ malformedHeader, inNamespace e.1 = true → e.2 ≠ [])
      ∧ (∃ e ∈ malformedHeader, inNamespace e.1 = true ∧ firstValid e.2 = false)
      ∧ ∃ err, (JoinTraceFromHeader (str "op") malformedHeader lowerKeyPropagator).returned
            = some (none, some (.EscapeError err))
          ∧ (JoinTraceFromHeader (str "op") malformedHeader lowerKeyPropagator).calls = []
          ∧ ∃ e ∈ malformedHeader, inNamespace e.1 = true
              ∧ QueryUnescape (e.2.headD []) = .error err :=
  ⟨by decide, by decide,
    JoinTraceFromHeader_escape_error (str "op") malformedHeader lowerKeyPropagator
      (by decide) (by decide)⟩

/-- C5 as stated fails: `strayMalformedHeader` holds two values that are not
validly percent-encoded, yet `JoinTraceFromHeader` calls the propagator and
returns its `Span` with a nil error. -/
theorem JoinTraceFromHeader_ignores_stray_values :
    QueryUnescape (str "100%") = .error (str "%")
      ∧ QueryUnescape (str "%zz") = .error (str "%zz")
      ∧ (JoinTraceFromHeader (str "op") strayMalformedHeader lowerKeyPropagator).calls
          = [⟨str "op", [], [(str "User", str "alice")]⟩]
      ∧ (JoinTraceFromHeader (str "op") strayMalformedHeader lowerKeyPropagator).returned
          = some (some (), none) := by
  decide

/-- C9: on a header collection whose headers in the two namespaces all have a
validly percent-encoded first value, `JoinTraceFromHeader` makes exactly one
call to `propagator.JoinTraceFromText`, with the operation name it was given,
the identity map with one entry per identity header (name with the prefix
stripped once, decoded first value) and the attribute map built the same way,
and returns what that call returns. -/
theorem JoinTraceFromHeader_delegates {Span E : Type} (operationName : GoString)
    (h : Header) (propagator : SpanPropagator Span E) (hwf : WF h)
    (hall : ∀ e ∈ h, inNamespace e.1 = true → firstValid e.2 = true) :
    (JoinTraceFromHeader operationName h propagator).calls
        = [⟨operationName, entriesUnder ContextIDHTTPHeaderPrefix h,
            entriesUnder TagsHTTPHeaderPrefix h⟩]
      ∧ (JoinTraceFromHeader operationName h propagator).returned
        = some (propagator.JoinTraceFromText operationName
            (entriesUnder ContextIDHTTPHeaderPrefix h) (entriesUnder TagsHTTPHeaderPrefix h)) :=
  JoinTraceFromHeader_run_of_valid operationName h propagator hwf hall

/-- C9 at a concrete input: `sampleHeader` with the empty operation name. -/
theorem JoinTraceFromHeader_delegates_witness :
    WF sampleHeader
      ∧ (∀ e ∈ sampleHeader, inNamespace e.1 = true → firstValid e.2 = true)
      ∧ (JoinTraceFromHeader [] sampleHeader lowerKeyPropagator).calls
          = [⟨[], entriesUnder ContextIDHTTPHeaderPrefix sampleHeader,
              entriesUnder TagsHTTPHeaderPrefix sampleHeader⟩] :=
  ⟨by decide, by decide,
    (JoinTraceFromHeader_delegates [] sampleHeader lowerKeyPropagator (by decide)
      (by decide)).1⟩

/-- C6: the values after the first one of a header have no effect on the run
of `JoinTraceFromHeader` (replacing them by any others gives the same result
and the same call), and the entry handed to the propagator for the suffix of a
header in a namespace is the URL-decoding of its first value. -/
theorem JoinTraceFromHeader_first_value_only {Span E : Type} (operationName : GoString)
    (h1 h2 : Header) (key v0 : GoString) (rest rest2 : List GoString)
    (propagator : SpanPropagator Span E) :
    JoinTraceFromHeader operationName (h1 ++ (key, v0 :: rest) :: h2) propagator
        = JoinTraceFromHeader operationName (h1 ++ (key, v0 :: rest2) :: h2) propagator
      ∧ (WF (h1 ++ (key, v0 :: rest) :: h2) →
          ∀ c ∈ (JoinTraceFromHeader operationName (h1 ++ (key, v0 :: rest) :: h2)
              propagator).calls,
            (HasPrefix key ContextIDHTTPHeaderPrefix = true →
              QueryUnescape v0 = .ok (decodeEscapes v0)
                ∧ lookup (TrimPrefix key ContextIDHTTPHeaderPrefix) c.contextIDMap
                  = some (decodeEscapes v0))
            ∧ (HasPrefix key TagsHTTPHeaderPrefix = true →
              QueryUnescape v0 = .ok (decodeEscapes v0)
                ∧ lookup (TrimPrefix key TagsHTTPHeaderPrefix) c.tagsMap
                  = some (decodeEscapes v0))) := by
  constructor
  · have hmap : (h1 ++ (key, v0 :: rest) :: h2).map firstOnly
        = (h1 ++ (key, v0 :: rest2) :: h2).map firstOnly := by
      simp [firstOnly]
    have hj : joinLoop (h1 ++ (key, v0 :: rest) :: h2) [] []
        = joinLoop (h1 ++ (key, v0 :: rest2) :: h2) [] [] := by
      rw [← joinLoop_firstOnly, hmap, joinLoop_firstOnly]
    simp only [JoinTraceFromHeader, hj]
  · intro hwf c hc
    have hmem : (key, v0 :: rest) ∈ h1 ++ (key, v0 :: rest) :: h2 := by simp
    cases hj : joinLoop (h1 ++ (key, v0 :: rest) :: h2) [] [] with
    | panicked => simp [JoinTraceFromHeader, hj] at hc
    | failed err => simp [JoinTraceFromHeader, hj] at hc
    | done a b =>
      have hall := joinLoop_done_valid _ _ _ _ _ hj
      have hj2 := joinLoop_of_valid _ hwf hall
      rw [hj] at hj2
      simp only [LoopExit.done.injEq] at hj2
      simp only [JoinTraceFromHeader, hj, List.mem_singleton] at hc
      subst hc
      simp only
      have hvalid : ∀ pfx, HasPrefix key pfx = true → inNamespace key = true →
          QueryUnescape v0 = .ok (decodeEscapes v0)
            ∧ lookup (TrimPrefix key pfx) (entriesUnder pfx (h1 ++ (key, v0 :: rest) :: h2))
              = some (decodeEscapes v0) := by
        intro pfx hk hin
        have hfv := hall _ hmem hin
        have hce : checkEscapes v0 = none := by simpa [firstValid] using hfv
        refine ⟨QueryUnescape_of_valid _ hce, ?_⟩
        exact lookup_of_mem_wf _ (wf_entriesUnder _ _ hwf) _ _
          (mem_entriesUnder pfx _ key (v0 :: rest) hmem hk)
      constructor
      · intro hk
        rw [hj2.1]
        exact hvalid _ hk (by simp [inNamespace, hk])
      · intro hk
        rw [hj2.2]
        exact hvalid _ hk (by simp [inNamespace, hk])

/-- C6 at the example of the specification: the header
`Open-Tracing-Trace-Tags-user` with the values `alice`, `bob` is decoded to
the attribute `user = alice`. -/
theorem JoinTraceFromHeader_first_value_only_witness :
    WF repeatedHeader
      ∧ (JoinTraceFromHeader (str "op") repeatedHeader lowerKeyPropagator).calls
          = [⟨str "op", [], [(str "user", str "alice")]⟩]
      ∧ ∀ c ∈ (JoinTraceFromHeader (str "op") repeatedHeader lowerKeyPropagator).calls,
          (HasPrefix (str "Open-Tracing-Trace-Tags-user") ContextIDHTTPHeaderPrefix = true →
            QueryUnescape (str "alice") = .ok (decodeEscapes (str "alice"))
              ∧ lookup (TrimPrefix (str "Open-Tracing-Trace-Tags-user")
                  ContextIDHTTPHeaderPrefix) c.contextIDMap = some (decodeEscapes (str "alice")))
          ∧ (HasPrefix (str "Open-Tracing-Trace-Tags-user") TagsHTTPHeaderPrefix = true →
            QueryUnescape (str "alice") = .ok (decodeEscapes (str "alice"))
              ∧ lookup (TrimPrefix (str "Open-Tracing-Trace-Tags-user")
                  TagsHTTPHeaderPrefix) c.tagsMap = some (decodeEscapes (str "alice"))) :=
  ⟨by decide, by decide,
    (JoinTraceFromHeader_first_value_only (str "op") [] []
      (str "Open-Tracing-Trace-Tags-user") (str "alice") [str "bob"] [] lowerKeyPropagator).2
      (by decide)⟩

/-! ## Properties of `PropagateSpanInHeader` -/

/-- C7, as the code has it: the encoded value of every identity entry is
among the values under the canonical MIME form of `Open-Tracing-Context-Id-`
followed by the suffix, and likewise for attribute entries under
`Open-Tracing-Trace-Tags-`; that name is the prefix followed by the suffix
itself when the suffix holds a byte that is not a token character, and by the
suffix with its letters put in canonical case otherwise. -/
theorem PropagateSpanInHeader_emits {Span E : Type} (sp : Span) (h : Header)
    (propagator : SpanPropagator Span E) (suffix value : GoString) :
    ((suffix, value) ∈ (propagator.PropagateSpanAsText sp).1 →
        QueryEscape value ∈ (PropagateSpanInHeader sp h propagator).values
          (headerName ContextIDHTTPHeaderPrefix suffix))
      ∧ ((suffix, value) ∈ (propagator.PropagateSpanAsText sp).2 →
        QueryEscape value ∈ (PropagateSpanInHeader sp h propagator).values
          (headerName TagsHTTPHeaderPrefix suffix))
      ∧ headerName ContextIDHTTPHeaderPrefix suffix = ContextIDHTTPHeaderPrefix ++
          (if suffix.all validHeaderFieldByte then canonLoop true suffix else suffix)
      ∧ headerName TagsHTTPHeaderPrefix suffix = TagsHTTPHeaderPrefix ++
          (if suffix.all validHeaderFieldByte then canonLoop true suffix else suffix) := by
  refine ⟨?_, ?_, headerName_contextID suffix, headerName_tags suffix⟩
  · intro hm
    rw [PropagateSpanInHeader_eq, values_addAll, values_addAll]
    exact List.mem_append_left _ (List.mem_append_right _ (mem_emittedUnder _ _ _ _ hm))
  · intro hm
    rw [PropagateSpanInHeader_eq, values_addAll]
    exact List.mem_append_right _ (mem_emittedUnder _ _ _ _ hm)

/-- C7 at a concrete input: the entry `traceid` of `lowerKeyPropagator`. -/
theorem PropagateSpanInHeader_emits_witness :
    (str "traceid", str "1") ∈ (lowerKeyPropagator.PropagateSpanAsText ()).1
      ∧ QueryEscape (str "1") ∈ (PropagateSpanInHeader () [] lowerKeyPropagator).values
          (headerName ContextIDHTTPHeaderPrefix (str "traceid")) :=
  ⟨by decide,
    (PropagateSpanInHeader_emits () [] lowerKeyPropagator (str "traceid") (str "1")).1
      (by decide)⟩

/-- C7 as stated fails: for the identity entry `traceid`, no header named
byte-for-byte `Open-Tracing-Context-Id-traceid` exists after the call; the
value is under `Open-Tracing-Context-Id-Traceid`. -/
theorem PropagateSpanInHeader_name_not_verbatim :
    (str "traceid", str "1") ∈ (lowerKeyPropagator.PropagateSpanAsText ()).1
      ∧ PropagateSpanInHeader () [] lowerKeyPropagator
          = [(str "Open-Tracing-Context-Id-Traceid", [str "1"])]
      ∧ lookup (ContextIDHTTPHeaderPrefix ++ str "traceid")
          (PropagateSpanInHeader () [] lowerKeyPropagator) = none := by
  decide

/-- C8: `PropagateSpanInHeader` only appends. A name present before the call
is present after it, and its value list is the old list followed by the
encoded values emitted under that name (identity entries first); the same
holds for the value list of every name; a name nothing is emitted under is
untouched; the number of values grows by the number of identity entries plus
the number of attribute entries. -/
theorem PropagateSpanInHeader_appends {Span E : Type} (sp : Span) (h : Header)
    (propagator : SpanPropagator Span E) (name : GoString) :
    (∀ vals, lookup name h = some vals →
        lookup name (PropagateSpanInHeader sp h propagator)
          = some (vals ++ (emittedUnder ContextIDHTTPHeaderPrefix
                (propagator.PropagateSpanAsText sp).1 name
              ++ emittedUnder TagsHTTPHeaderPrefix (propagator.PropagateSpanAsText sp).2 name)))
      ∧ (PropagateSpanInHeader sp h propagator).values name
          = h.values name ++ (emittedUnder ContextIDHTTPHeaderPrefix
                (propagator.PropagateSpanAsText sp).1 name
              ++ emittedUnder TagsHTTPHeaderPrefix (propagator.PropagateSpanAsText sp).2 name)
      ∧ ((∀ e ∈ (propagator.PropagateSpanAsText sp).1,
            headerName ContextIDHTTPHeaderPrefix e.1 ≠ name) →
          (∀ e ∈ (propagator.PropagateSpanAsText sp).2,
            headerName TagsHTTPHeaderPrefix e.1 ≠ name) →
          lookup name (PropagateSpanInHeader sp h propagator) = lookup name h)
      ∧ (PropagateSpanInHeader sp h propagator).count
          = h.count + (propagator.PropagateSpanAsText sp).1.length
              + (propagator.PropagateSpanAsText sp).2.length := by
  have hv : (PropagateSpanInHeader sp h propagator).values name
      = h.values name ++ (emittedUnder ContextIDHTTPHeaderPrefix
            (propagator.PropagateSpanAsText sp).1 name
          ++ emittedUnder TagsHTTPHeaderPrefix (propagator.PropagateSpanAsText sp).2 name) := by
    rw [PropagateSpanInHeader_eq, values_addAll, values_addAll, List.append_assoc]
  refine ⟨?_, hv, ?_, ?_⟩
  · intro vals hl
    have hs : (lookup name (PropagateSpanInHeader sp h propagator)).isSome = true := by
      rw [PropagateSpanInHeader_eq]
      exact lookup_addAll_isSome _ _ _ _ (lookup_addAll_isSome _ _ _ _ (by simp [hl]))
    obtain ⟨w, hw⟩ := Option.isSome_iff_exists.1 hs
    have hv2 := hv
    simp only [Header.values, hw, hl, Option.getD_some] at hv2
    rw [hw, hv2]
  · intro h1 h2
    rw [PropagateSpanInHeader_eq, lookup_addAll_none _ _ _ _ h2, lookup_addAll_none _ _ _ _ h1]
  · rw [PropagateSpanInHeader_eq, count_addAll, count_addAll]

/-- C8 at a concrete input: a header that already holds two values under the
name an attribute is emitted under keeps them in front. -/
theorem PropagateSpanInHeader_appends_witness :
    lookup (str "Open-Tracing-Trace-Tags-User") sampleHeader = some [str "alice", str "bob"]
      ∧ lookup (str "Open-Tracing-Trace-Tags-User")
          (PropagateSpanInHeader () sampleHeader canonicalKeyPropagator)
        = some ([str "alice", str "bob"] ++
            (emittedUnder ContextIDHTTPHeaderPrefix
                (canonicalKeyPropagator.PropagateSpanAsText ()).1
                (str "Open-Tracing-Trace-Tags-User")
              ++ emittedUnder TagsHTTPHeaderPrefix
                (canonicalKeyPropagator.PropagateSpanAsText ()).2
                (str "Open-Tracing-Trace-Tags-User"))) :=
  ⟨by decide,
    (PropagateSpanInHeader_appends () sampleHeader canonicalKeyPropagator
      (str "Open-Tracing-Trace-Tags-User")).1 _ (by decide)⟩

/-! ## The round trip through headers -/

theorem Header.Add_fresh (h : Header) (pfx k v : GoString)
    (hc : headerName pfx k = pfx ++ k) (hn : pfx ++ k ∉ keys h) :
    Header.Add h (pfx ++ k) (QueryEscape v) = h ++ [encodedEntry pfx (k, v)] := by
  have hc2 : CanonicalMIMEHeaderKey (pfx ++ k) = pfx ++ k := hc
  simp only [Header.Add, hc2, lookup_eq_none_of_not_mem _ _ hn, Option.getD_none,
    List.nil_append]
  rw [upsert_of_not_mem _ _ _ hn]
  rfl

theorem addAll_fresh (pfx : GoString) (m : TextMap) (h : Header)
    (hc : ∀ e ∈ m, headerName pfx e.1 = pfx ++ e.1)
    (hnd : (keys h ++ m.map (fun e => pfx ++ e.1)).Nodup) :
    addAll pfx m h = h ++ m.map (encodedEntry pfx) := by
  induction m generalizing h with
  | nil => simp [addAll]
  | cons e m ih =>
    obtain ⟨k, v⟩ := e
    have hn : pfx ++ k ∉ keys h := by
      intro hm
      exact (List.nodup_append.1 hnd).2.2 hm (by simp)
    simp only [addAll]
    rw [Header.Add_fresh _ _ _ _ (hc (k, v) (List.mem_cons_self _ _)) hn,
      ih _ (fun e he => hc e (List.mem_cons_of_mem _ he))]
    · simp
    · simpa [keys, encodedEntry] using hnd

theorem nodup_map_append_left (pfx : GoString) (m : TextMap) (hwf : WF m) :
    (m.map (fun e => pfx ++ e.1)).Nodup := by
  have h1 : m.map (fun e => pfx ++ e.1) = (keys m).map (fun k => pfx ++ k) := by
    simp [keys, List.map_map, Function.comp_def]
  rw [h1]
  exact List.Nodup.map (fun a b hab => List.append_cancel_left hab) hwf

theorem keys_map_encodedEntry (pfx : GoString) (m : TextMap) :
    keys (m.map (encodedEntry pfx)) = m.map (fun e => pfx ++ e.1) := by
  simp [keys, encodedEntry, List.map_map, Function.comp_def]

theorem nodup_encoded_keys (ids tags : TextMap) (hi : WF ids) (ht : WF tags) :
    (keys (ids.map (encodedEntry ContextIDHTTPHeaderPrefix))
      ++ tags.map (fun e => TagsHTTPHeaderPrefix ++ e.1)).Nodup := by
  rw [keys_map_encodedEntry]
  refine List.nodup_append.2 ⟨nodup_map_append_left _ _ hi, nodup_map_append_left _ _ ht, ?_⟩
  intro x hx1 hx2
  simp only [List.mem_map] at hx1 hx2
  obtain ⟨a, _, rfl⟩ := hx1
  obtain ⟨b, _, hb⟩ := hx2
  have h1 := HasPrefix_contextID_tags a.1
  rw [← hb, HasPrefix_append] at h1
  cases h1

theorem entriesUnder_append (pfx : GoString) (h1 h2 : Header) :
    entriesUnder pfx (h1 ++ h2) = entriesUnder pfx h1 ++ entriesUnder pfx h2 := by
  simp [entriesUnder]

theorem entriesUnder_encoded_same (pfx : GoString) (m : TextMap) :
    entriesUnder pfx (m.map (encodedEntry pfx)) = m := by
  induction m with
  | nil => rfl
  | cons e m ih =>
    obtain ⟨k, v⟩ := e
    show entriesUnder pfx ((pfx ++ k, [QueryEscape v]) :: m.map (encodedEntry pfx)) = (k, v) :: m
    rw [entriesUnder_cons_of_hasPrefix _ _ _ _ (HasPrefix_append _ _), TrimPrefix_append, ih]
    simp [decodeEscapes_QueryEscape]

theorem entriesUnder_encoded_other (pfx q : GoString) (m : TextMap)
    (hq : ∀ k, HasPrefix (q ++ k) pfx = false) :
    entriesUnder pfx (m.map (encodedEntry q)) = [] := by
  induction m with
  | nil => rfl
  | cons e m ih =>
    obtain ⟨k, v⟩ := e
    show entriesUnder pfx ((q ++ k, [QueryEscape v]) :: m.map (encodedEntry q)) = []
    rw [entriesUnder_cons_of_not _ _ _ _ (hq k)]
    exact ih

/-- The header collection `PropagateSpanInHeader` builds from an empty one
when no header name is changed by canonicalisation: one single-valued header
per entry. -/
theorem PropagateSpanInHeader_fresh {Span E : Type} (sp : Span)
    (propagator : SpanPropagator Span E)
    (hwfI : WF (propagator.PropagateSpanAsText sp).1)
    (hwfA : WF (propagator.PropagateSpanAsText sp).2)
    (hcI : ∀ e ∈ (propagator.PropagateSpanAsText sp).1,
      headerName ContextIDHTTPHeaderPrefix e.1 = ContextIDHTTPHeaderPrefix ++ e.1)
    (hcA : ∀ e ∈ (propagator.PropagateSpanAsText sp).2,
      headerName TagsHTTPHeaderPrefix e.1 = TagsHTTPHeaderPrefix ++ e.1) :
    PropagateSpanInHeader sp [] propagator
      = (propagator.PropagateSpanAsText sp).1.map (encodedEntry ContextIDHTTPHeaderPrefix)
        ++ (propagator.PropagateSpanAsText sp).2.map (encodedEntry TagsHTTPHeaderPrefix) := by
  rw [PropagateSpanInHeader_eq,
    addAll_fresh _ _ [] hcI (by simpa [keys] using nodup_map_append_left _ _ hwfI)]
  rw [List.nil_append, addAll_fresh _ _ _ hcA (nodup_encoded_keys _ _ hwfI hwfA)]

/-- C2, as the code has it: when the propagator's maps are such that no header
name (prefix followed by suffix) is changed by the canonicalisation of
`Header.Add`, encoding into an empty header collection and decoding it again,
in whatever order the headers are visited, hands the propagator an identity
map and an attribute map with exactly the original entries, for all values. -/
theorem header_roundtrip {Span E : Type} (sp : Span) (operationName : GoString)
    (propagator : SpanPropagator Span E) (h : Header)
    (hwfI : WF (propagator.PropagateSpanAsText sp).1)
    (hwfA : WF (propagator.PropagateSpanAsText sp).2)
    (hcI : ∀ e ∈ (propagator.PropagateSpanAsText sp).1,
      headerName ContextIDHTTPHeaderPrefix e.1 = ContextIDHTTPHeaderPrefix ++ e.1)
    (hcA : ∀ e ∈ (propagator.PropagateSpanAsText sp).2,
      headerName TagsHTTPHeaderPrefix e.1 = TagsHTTPHeaderPrefix ++ e.1)
    (hperm : h.Perm (PropagateSpanInHeader sp [] propagator)) :
    (JoinTraceFromHeader operationName h propagator).calls
        = [⟨operationName, entriesUnder ContextIDHTTPHeaderPrefix h,
            entriesUnder TagsHTTPHeaderPrefix h⟩]
      ∧ (entriesUnder ContextIDHTTPHeaderPrefix h).Perm (propagator.PropagateSpanAsText sp).1
      ∧ (entriesUnder TagsHTTPHeaderPrefix h).Perm (propagator.PropagateSpanAsText sp).2
      ∧ (∀ k, lookup k (entriesUnder ContextIDHTTPHeaderPrefix h)
          = lookup k (propagator.PropagateSpanAsText sp).1)
      ∧ (∀ k, lookup k (entriesUnder TagsHTTPHeaderPrefix h)
          = lookup k (propagator.PropagateSpanAsText sp).2)
      ∧ (JoinTraceFromHeader operationName h propagator).returned
        = some (propagator.JoinTraceFromText operationName
            (entriesUnder ContextIDHTTPHeaderPrefix h) (entriesUnder TagsHTTPHeaderPrefix h)) := by
  have hE := PropagateSpanInHeader_fresh sp propagator hwfI hwfA hcI hcA
  rw [hE] at hperm
  have hwfE : WF ((propagator.PropagateSpanAsText sp).1.map (encodedEntry ContextIDHTTPHeaderPrefix)
      ++ (propagator.PropagateSpanAsText sp).2.map (encodedEntry TagsHTTPHeaderPrefix)) := by
    have := nodup_encoded_keys _ _ hwfI hwfA
    rw [← keys_map_encodedEntry] at this
    simpa [WF, keys] using this
  have hwf : WF h := (List.Perm.nodup_iff (hperm.map Prod.fst)).2 hwfE
  have hall : ∀ e ∈ h, inNamespace e.1 = true → firstValid e.2 = true := by
    intro e he _
    have he2 := (List.Perm.mem_iff hperm).1 he
    rcases List.mem_append.1 he2 with hm | hm
    · obtain ⟨x, _, rfl⟩ := List.mem_map.1 hm
      simp [encodedEntry, firstValid, checkEscapes_QueryEscape]
    · obtain ⟨x, _, rfl⟩ := List.mem_map.1 hm
      simp [encodedEntry, firstValid, checkEscapes_QueryEscape]
  have hpI : (entriesUnder ContextIDHTTPHeaderPrefix h).Perm
      (propagator.PropagateSpanAsText sp).1 := by
    have := (hperm.filter (fun e => HasPrefix e.1 ContextIDHTTPHeaderPrefix)).map
      (fun e => (TrimPrefix e.1 ContextIDHTTPHeaderPrefix, decodeEscapes (e.2.headD [])))
    have h2 : entriesUnder ContextIDHTTPHeaderPrefix
        ((propagator.PropagateSpanAsText sp).1.map (encodedEntry ContextIDHTTPHeaderPrefix)
          ++ (propagator.PropagateSpanAsText sp).2.map (encodedEntry TagsHTTPHeaderPrefix))
        = (propagator.PropagateSpanAsText sp).1 := by
      rw [entriesUnder_append, entriesUnder_encoded_same,
        entriesUnder_encoded_other _ _ _ HasPrefix_tags_contextID, List.append_nil]
    rw [← h2]
    exact this
  have hpA : (entriesUnder TagsHTTPHeaderPrefix h).Perm
      (propagator.PropagateSpanAsText sp).2 := by
    have := (hperm.filter (fun e => HasPrefix e.1 TagsHTTPHeaderPrefix)).map
      (fun e => (TrimPrefix e.1 TagsHTTPHeaderPrefix, decodeEscapes (e.2.headD [])))
    have h2 : entriesUnder TagsHTTPHeaderPrefix
        ((propagator.PropagateSpanAsText sp).1.map (encodedEntry ContextIDHTTPHeaderPrefix)
          ++ (propagator.PropagateSpanAsText sp).2.map (encodedEntry TagsHTTPHeaderPrefix))
        = (propagator.PropagateSpanAsText sp).2 := by
      rw [entriesUnder_append, entriesUnder_encoded_same,
        entriesUnder_encoded_other _ _ _ HasPrefix_contextID_tags, List.nil_append]
    rw [← h2]
    exact this
  have hd := JoinTraceFromHeader_run_of_valid operationName h propagator hwf hall
  exact ⟨hd.1, hpI, hpA, lookup_perm _ _ (wf_entriesUnder _ _ hwf) hpI,
    lookup_perm _ _ (wf_entriesUnder _ _ hwf) hpA, hd.2⟩

/-- C2 at a concrete input: `canonicalKeyPropagator`, whose values hold
reserved characters and non-ASCII bytes. -/
theorem header_roundtrip_witness :
    WF (canonicalKeyPropagator.PropagateSpanAsText ()).1
      ∧ WF (canonicalKeyPropagator.PropagateSpanAsText ()).2
      ∧ (entriesUnder ContextIDHTTPHeaderPrefix
            (PropagateSpanInHeader () [] canonicalKeyPropagator)).Perm
          (canonicalKeyPropagator.PropagateSpanAsText ()).1
      ∧ (entriesUnder TagsHTTPHeaderPrefix
            (PropagateSpanInHeader () [] canonicalKeyPropagator)).Perm
          (canonicalKeyPropagator.PropagateSpanAsText ()).2 :=
  ⟨by decide, by decide,
    (header_roundtrip () (str "op") canonicalKeyPropagator
      (PropagateSpanInHeader () [] canonicalKeyPropagator) (by decide) (by decide)
      (by decide) (by decide) (List.Perm.refl _)).2.1,
    (header_roundtrip () (str "op") canonicalKeyPropagator
      (PropagateSpanInHeader () [] canonicalKeyPropagator) (by decide) (by decide)
      (by decide) (by decide) (List.Perm.refl _)).2.2.1⟩

/-- C2 as stated fails: the identity map with the suffix `traceid` comes back
from the round trip with the suffix `Traceid`, so the map handed to the
propagator has no entry for `traceid`. -/
theorem header_roundtrip_changes_suffix_case :
    (lowerKeyPropagator.PropagateSpanAsText ()).1 = [(str "traceid", str "1")]
      ∧ (JoinTraceFromHeader (str "op") (PropagateSpanInHeader () [] lowerKeyPropagator)
          lowerKeyPropagator).calls = [⟨str "op", [(str "Traceid", str "1")], []⟩]
      ∧ lookup (str "traceid") [(str "Traceid", str "1")] = (none : Option GoString)
      ∧ lookup (str "traceid") (lowerKeyPropagator.PropagateSpanAsText ()).1 = some (str "1") := by
  decide

/-! ## Encoding of values, the two namespaces, totality -/

theorem keys_upsert {β : Type} (k k' : GoString) (v : β) (m : List (GoString × β))
    (h : k ∈ keys (upsert k' v m)) : k = k' ∨ k ∈ keys m := by
  induction m with
  | nil =>
    simp only [upsert, keys, List.map_cons, List.map_nil, List.mem_singleton] at h
    exact Or.inl h
  | cons e m ih =>
    obtain ⟨k0, v0⟩ := e
    by_cases h0 : k0 = k'
    · simp only [upsert, h0, if_true, keys, List.map_cons, List.mem_cons] at h ⊢
      rcases h with h | h
      · exact Or.inl h
      · exact Or.inr (Or.inr h)
    · simp only [upsert, h0, if_false, keys, List.map_cons, List.mem_cons] at h ⊢
      rcases h with h | h
      · exact Or.inr (Or.inl h)
      · rcases ih h with h2 | h2
        · exact Or.inl h2
        · exact Or.inr (Or.inr h2)

theorem keys_foldl_upsert (es acc : TextMap) (k : GoString)
    (h : k ∈ keys (es.foldl (fun m e => upsert e.1 e.2 m) acc)) :
    k ∈ keys acc ∨ k ∈ keys es := by
  induction es generalizing acc with
  | nil => exact Or.inl h
  | cons e es ih =>
    simp only [List.foldl_cons] at h
    rcases ih _ h with h1 | h1
    · rcases keys_upsert _ _ _ _ h1 with h2 | h2
      · exact Or.inr (by simp [keys, h2])
      · exact Or.inl h2
    · exact Or.inr (by
        simp only [keys, List.map_cons, List.mem_cons]
        exact Or.inr h1)

/-- Where the entries of the maps built by the loop come from: a key of the
identity map was there before or is the suffix of a header in the identity
namespace, and likewise for the attribute map. -/
theorem joinLoop_keys (h : Header) (ids tags a b : TextMap)
    (hd : joinLoop h ids tags = .done a b) :
    (∀ k ∈ keys a, k ∈ keys ids ∨ ContextIDHTTPHeaderPrefix ++ k ∈ keys h)
      ∧ (∀ k ∈ keys b, k ∈ keys tags ∨ TagsHTTPHeaderPrefix ++ k ∈ keys h) := by
  have hall := joinLoop_done_valid _ _ _ _ _ hd
  have hd2 := joinLoop_done h ids tags hall
  rw [hd] at hd2
  simp only [LoopExit.done.injEq] at hd2
  constructor
  · intro k hk
    rw [hd2.1] at hk
    rcases keys_foldl_upsert _ _ _ hk with h1 | h1
    · exact Or.inl h1
    · exact Or.inr (mem_keys_entriesUnder _ _ _ h1)
  · intro k hk
    rw [hd2.2] at hk
    rcases keys_foldl_upsert _ _ _ hk with h1 | h1
    · exact Or.inl h1
    · exact Or.inr (mem_keys_entriesUnder _ _ _ h1)

theorem HasPrefix_headerName_contextID (suffix : GoString) :
    HasPrefix (headerName ContextIDHTTPHeaderPrefix suffix) ContextIDHTTPHeaderPrefix = true
      ∧ HasPrefix (headerName ContextIDHTTPHeaderPrefix suffix) TagsHTTPHeaderPrefix = false := by
  rw [headerName_contextID]
  exact ⟨HasPrefix_append _ _, HasPrefix_contextID_tags _⟩

theorem HasPrefix_headerName_tags (suffix : GoString) :
    HasPrefix (headerName TagsHTTPHeaderPrefix suffix) TagsHTTPHeaderPrefix = true
      ∧ HasPrefix (headerName TagsHTTPHeaderPrefix suffix) ContextIDHTTPHeaderPrefix = false := by
  rw [headerName_tags]
  exact ⟨HasPrefix_append _ _, HasPrefix_tags_contextID _⟩

/-- The loop on a single header changes at most one of the two maps. -/
theorem joinLoop_single (key : GoString) (val : List GoString) (ids tags a b : TextMap)
    (hd : joinLoop [(key, val)] ids tags = .done a b) :
    (a = ids ∨ b = tags)
      ∧ (HasPrefix key ContextIDHTTPHeaderPrefix = false → a = ids)
      ∧ (HasPrefix key TagsHTTPHeaderPrefix = false → b = tags) := by
  by_cases hin : inNamespace key = true
  · cases val with
    | nil => rw [joinLoop_cons_empty _ _ _ _ hin] at hd; cases hd
    | cons v0 rest =>
      cases hc : checkEscapes v0 with
      | some err => rw [joinLoop_cons_invalid _ _ _ _ _ _ _ hin hc] at hd; cases hd
      | none =>
        by_cases hk : HasPrefix key ContextIDHTTPHeaderPrefix = true
        · rw [joinLoop_cons_contextID _ _ _ _ _ _ hk hc] at hd
          simp only [joinLoop, LoopExit.done.injEq] at hd
          refine ⟨Or.inr hd.2.symm, fun hk2 => ?_, fun _ => hd.2.symm⟩
          rw [hk] at hk2; cases hk2
        · have hk2 : HasPrefix key ContextIDHTTPHeaderPrefix = false := by simpa using hk
          have ht : HasPrefix key TagsHTTPHeaderPrefix = true := by
            simpa [inNamespace, hk2] using hin
          rw [joinLoop_cons_tags _ _ _ _ _ _ hk2 ht hc] at hd
          simp only [joinLoop, LoopExit.done.injEq] at hd
          refine ⟨Or.inl hd.1.symm, fun _ => hd.1.symm, fun ht2 => ?_⟩
          rw [ht] at ht2; cases ht2
  · have hin2 : inNamespace key = false := by simpa using hin
    have hk2 : HasPrefix key ContextIDHTTPHeaderPrefix = false := by
      simp only [inNamespace, Bool.or_eq_false_iff] at hin2; exact hin2.1
    have ht2 : HasPrefix key TagsHTTPHeaderPrefix = false := by
      simp only [inNamespace, Bool.or_eq_false_iff] at hin2; exact hin2.2
    rw [joinLoop_cons_other _ _ _ _ _ hk2 ht2] at hd
    simp only [joinLoop, LoopExit.done.injEq] at hd
    exact ⟨Or.inl hd.1.symm, fun _ => hd.1.symm, fun _ => hd.2.symm⟩

/-- C13: the value encoding of `PropagateSpanInHeader` (`url.QueryEscape`, a
function with no error result) followed by the value decoding of
`JoinTraceFromHeader` (`url.QueryUnescape`) succeeds and gives back the
original string, for every string of bytes. -/
theorem QueryUnescape_QueryEscape (v : GoString) :
    QueryUnescape (QueryEscape v) = .ok v := by
  rw [QueryUnescape_of_valid _ (checkEscapes_QueryEscape v), decodeEscapes_QueryEscape]

/-- C14: no header name starts with both prefixes; the loop of
`JoinTraceFromHeader` on one header changes at most one of the two maps; the
name an identity entry is emitted under by `PropagateSpanInHeader` is in the
identity namespace and not in the attribute namespace, and conversely; and in
every run the keys of the identity map handed to the propagator are suffixes
of identity headers, those of the attribute map suffixes of attribute
headers. -/
theorem namespaces_separate {Span E : Type} (operationName : GoString) (h : Header)
    (propagator : SpanPropagator Span E) (key suffix : GoString) (val : List GoString)
    (ids tags : TextMap) :
    ¬ (HasPrefix key ContextIDHTTPHeaderPrefix = true ∧ HasPrefix key TagsHTTPHeaderPrefix = true)
      ∧ (∀ a b, joinLoop [(key, val)] ids tags = .done a b → a = ids ∨ b = tags)
      ∧ (∀ a b, joinLoop [(headerName ContextIDHTTPHeaderPrefix suffix, val)] ids tags
            = .done a b → b = tags)
      ∧ (∀ a b, joinLoop [(headerName TagsHTTPHeaderPrefix suffix, val)] ids tags
            = .done a b → a = ids)
      ∧ (∀ c ∈ (JoinTraceFromHeader operationName h propagator).calls,
          (∀ k ∈ keys c.contextIDMap, ContextIDHTTPHeaderPrefix ++ k ∈ keys h
              ∧ HasPrefix (ContextIDHTTPHeaderPrefix ++ k) TagsHTTPHeaderPrefix = false)
          ∧ (∀ k ∈ keys c.tagsMap, TagsHTTPHeaderPrefix ++ k ∈ keys h
              ∧ HasPrefix (TagsHTTPHeaderPrefix ++ k) ContextIDHTTPHeaderPrefix = false)) := by
  refine ⟨?_, ?_, ?_, ?_, ?_⟩
  · rintro ⟨h1, h2⟩
    rw [namespaces_disjoint _ h1] at h2
    cases h2
  · intro a b hd
    exact (joinLoop_single _ _ _ _ _ _ hd).1
  · intro a b hd
    exact (joinLoop_single _ _ _ _ _ _ hd).2.2 (HasPrefix_headerName_contextID suffix).2
  · intro a b hd
    exact (joinLoop_single _ _ _ _ _ _ hd).2.1 (HasPrefix_headerName_tags suffix).2
  · intro c hc
    cases hj : joinLoop h [] [] with
    | panicked => simp [JoinTraceFromHeader, hj] at hc
    | failed err => simp [JoinTraceFromHeader, hj] at hc
    | done a b =>
      simp only [JoinTraceFromHeader, hj, List.mem_singleton] at hc
      subst hc
      obtain ⟨hk1, hk2⟩ := joinLoop_keys _ _ _ _ _ hj
      constructor
      · intro k hk
        rcases hk1 k hk with h0 | h0
        · simp [keys] at h0
        · exact ⟨h0, HasPrefix_contextID_tags k⟩
      · intro k hk
        rcases hk2 k hk with h0 | h0
        · simp [keys] at h0
        · exact ⟨h0, HasPrefix_tags_contextID k⟩

/-- C14 at a concrete input: the header `Open-Tracing-Context-Id-Traceid`
leaves the attribute map as it was. -/
theorem namespaces_separate_witness :
    joinLoop [(headerName ContextIDHTTPHeaderPrefix (str "traceid"), [str "1"])] [] []
        = .done [(str "Traceid", str "1")] []
      ∧ ([] : TextMap) = [] :=
  ⟨by decide,
    (namespaces_separate (str "op") sampleHeader lowerKeyPropagator (str "Accept")
      (str "traceid") [str "1"] [] []).2.2.1 [(str "Traceid", str "1")] [] (by decide)⟩

/-- C16, at the failing input: on a header collection in which an identity
header has an empty value list, the read `val[0]` is out of range and
`JoinTraceFromHeader` panics; it returns neither a `Span` nor an error. -/
theorem JoinTraceFromHeader_panics_on_empty_values :
    WF emptyValueHeader
      ∧ joinLoop emptyValueHeader [] [] = .panicked
      ∧ (JoinTraceFromHeader (str "op") emptyValueHeader lowerKeyPropagator).returned = none
      ∧ (JoinTraceFromHeader (str "op") emptyValueHeader lowerKeyPropagator).calls = [] := by
  decide

/-! ## Visiting order of the propagator's maps -/

theorem lookup_addAll (pfx : GoString) (m : TextMap) (h : Header) (name : GoString) :
    lookup name (addAll pfx m h)
      = if emittedUnder pfx m name = [] then lookup name h
        else some (h.values name ++ emittedUnder pfx m name) := by
  induction m generalizing h with
  | nil => simp [addAll, emittedUnder]
  | cons e m ih =>
    obtain ⟨k, v⟩ := e
    simp only [addAll]
    rw [ih, values_Add]
    by_cases hk : CanonicalMIMEHeaderKey (pfx ++ k) = name
    · have h1 : emittedUnder pfx ((k, v) :: m) name = QueryEscape v :: emittedUnder pfx m name := by
        simp [emittedUnder, headerName, hk]
      have h2 : lookup name (Header.Add h (pfx ++ k) (QueryEscape v))
          = some (h.values name ++ [QueryEscape v]) := by
        simp [Header.Add, lookup_upsert, hk, Header.values]
      rw [h1, h2]
      simp only [hk, if_true]
      split <;> simp [*]
    · have h1 : emittedUnder pfx ((k, v) :: m) name = emittedUnder pfx m name := by
        simp [emittedUnder, headerName, hk]
      rw [h1, lookup_Add_ne _ _ _ _ hk]
      simp only [hk, if_false]

theorem filter_length_le_one {α β : Type} [DecidableEq β] (f : α → β) (l : List α)
    (hn : (l.map f).Nodup) (x : β) : (l.filter (fun e => decide (f e = x))).length ≤ 1 := by
  induction l with
  | nil => simp
  | cons a l ih =>
    simp only [List.map_cons, List.nodup_cons] at hn
    by_cases ha : f a = x
    · have hnil : l.filter (fun e => decide (f e = x)) = [] := by
        rw [List.filter_eq_nil_iff]
        intro e he
        simp only [decide_eq_true_eq]
        intro hx
        exact hn.1 (by rw [ha, ← hx]; exact List.mem_map_of_mem f he)
      simp [List.filter_cons, ha, hnil]
    · simp only [List.filter_cons, ha, decide_False, Bool.false_eq_true, if_false]
      exact ih hn.2

theorem perm_eq_of_length_le_one {α : Type} (l1 l2 : List α) (hp : l1.Perm l2)
    (hl : l2.length ≤ 1) : l1 = l2 := by
  match l2, hl, hp with
  | [], _, hp => exact hp.eq_nil
  | [a], _, hp => exact List.perm_singleton.1 hp
  | _ :: _ :: _, hl, _ => simp at hl

theorem emittedUnder_perm (pfx : GoString) (m m2 : TextMap) (name : GoString)
    (hp : m2.Perm m) (hn : (m.map (fun e => headerName pfx e.1)).Nodup) :
    emittedUnder pfx m2 name = emittedUnder pfx m name := by
  simp only [emittedUnder]
  rw [perm_eq_of_length_le_one _ _ (hp.filter _)
    (filter_length_le_one (fun e : GoString × GoString => headerName pfx e.1) m hn name)]

/-- C18, as the code has it: when no two entries of the identity map are
emitted under the same header name, and no two entries of the attribute map
are, the header collection after `PropagateSpanInHeader` has the same value
list under every header name, and so the same first value, whatever order the
entries of the two maps are visited in. -/
theorem PropagateSpanInHeader_order_independent {Span E : Type} (sp sp2 : Span)
    (propagator propagator2 : SpanPropagator Span E) (h : Header) (name : GoString)
    (hpI : (propagator2.PropagateSpanAsText sp2).1.Perm (propagator.PropagateSpanAsText sp).1)
    (hpA : (propagator2.PropagateSpanAsText sp2).2.Perm (propagator.PropagateSpanAsText sp).2)
    (hnI : ((propagator.PropagateSpanAsText sp).1.map
      (fun e => headerName ContextIDHTTPHeaderPrefix e.1)).Nodup)
    (hnA : ((propagator.PropagateSpanAsText sp).2.map
      (fun e => headerName TagsHTTPHeaderPrefix e.1)).Nodup) :
    lookup name (PropagateSpanInHeader sp2 h propagator2)
        = lookup name (PropagateSpanInHeader sp h propagator)
      ∧ ((PropagateSpanInHeader sp2 h propagator2).values name).head?
        = ((PropagateSpanInHeader sp h propagator).values name).head? := by
  have hl : lookup name (PropagateSpanInHeader sp2 h propagator2)
      = lookup name (PropagateSpanInHeader sp h propagator) := by
    rw [PropagateSpanInHeader_eq, PropagateSpanInHeader_eq, lookup_addAll, lookup_addAll,
      lookup_addAll, lookup_addAll, values_addAll, values_addAll,
      emittedUnder_perm _ _ _ name hpI hnI, emittedUnder_perm _ _ _ name hpA hnA]
  refine ⟨hl, ?_⟩
  simp only [Header.values, hl]

/-- C18 at a concrete input: the maps of `canonicalKeyPropagator` visited in
two orders. -/
theorem PropagateSpanInHeader_order_independent_witness :
    (canonicalKeyPropagatorSwapped.PropagateSpanAsText ()).1.Perm
        (canonicalKeyPropagator.PropagateSpanAsText ()).1
      ∧ lookup (str "Open-Tracing-Context-Id-Traceid")
          (PropagateSpanInHeader () sampleHeader canonicalKeyPropagatorSwapped)
        = lookup (str "Open-Tracing-Context-Id-Traceid")
          (PropagateSpanInHeader () sampleHeader canonicalKeyPropagator) :=
  ⟨by decide,
    (PropagateSpanInHeader_order_independent () () canonicalKeyPropagator
      canonicalKeyPropagatorSwapped sampleHeader (str "Open-Tracing-Context-Id-Traceid")
      (by decide) (by decide) (by decide) (by decide)).1⟩

/-- C18 as stated fails: the attribute map with the suffixes `user` and
`User` gives, when visited in its two orders, header collections whose value
lists under `Open-Tracing-Trace-Tags-User` differ, first value included. -/
theorem PropagateSpanInHeader_order_dependent :
    WF (caseCollidingPropagator.PropagateSpanAsText ()).2
      ∧ (caseCollidingPropagatorSwapped.PropagateSpanAsText ()).2.Perm
          (caseCollidingPropagator.PropagateSpanAsText ()).2
      ∧ PropagateSpanInHeader () [] caseCollidingPropagator
          = [(str "Open-Tracing-Trace-Tags-User", [str "alice", str "bob"])]
      ∧ PropagateSpanInHeader () [] caseCollidingPropagatorSwapped
          = [(str "Open-Tracing-Trace-Tags-User", [str "bob", str "alice"])]
      ∧ ((PropagateSpanInHeader () [] caseCollidingPropagator).values
            (str "Open-Tracing-Trace-Tags-User")).head? = some (str "alice")
      ∧ ((PropagateSpanInHeader () [] caseCollidingPropagatorSwapped).values
            (str "Open-Tracing-Trace-Tags-User")).head? = some (str "bob") := by
  decide

/-! ## Headers the decoder does not read -/

theorem joinLoop_filter (h : Header) (ids tags : TextMap) :
    joinLoop (h.filter (fun e => inNamespace e.1)) ids tags = joinLoop h ids tags := by
  induction h generalizing ids tags with
  | nil => rfl
  | cons e h ih =>
    obtain ⟨key, val⟩ := e
    by_cases hin : inNamespace key = true
    · simp only [List.filter_cons, hin, if_true]
      cases val with
      | nil => rw [joinLoop_cons_empty _ _ _ _ hin, joinLoop_cons_empty _ _ _ _ hin]
      | cons v0 rest =>
        cases hc : checkEscapes v0 with
        | some err =>
          rw [joinLoop_cons_invalid _ _ _ _ _ _ _ hin hc,
            joinLoop_cons_invalid _ _ _ _ _ _ _ hin hc]
        | none =>
          by_cases hk : HasPrefix key ContextIDHTTPHeaderPrefix = true
          · rw [joinLoop_cons_contextID _ _ _ _ _ _ hk hc,
              joinLoop_cons_contextID _ _ _ _ _ _ hk hc, ih]
          · have hk2 : HasPrefix key ContextIDHTTPHeaderPrefix = false := by simpa using hk
            have ht : HasPrefix key TagsHTTPHeaderPrefix = true := by
              simpa [inNamespace, hk2] using hin
            rw [joinLoop_cons_tags _ _ _ _ _ _ hk2 ht hc,
              joinLoop_cons_tags _ _ _ _ _ _ hk2 ht hc, ih]
    · have hin2 : inNamespace key = false := by simpa using hin
      have hk2 : HasPrefix key ContextIDHTTPHeaderPrefix = false := by
        simp only [inNamespace, Bool.or_eq_false_iff] at hin2; exact hin2.1
      have ht2 : HasPrefix key TagsHTTPHeaderPrefix = false := by
        simp only [inNamespace, Bool.or_eq_false_iff] at hin2; exact hin2.2
      simp only [List.filter_cons, hin2, Bool.false_eq_true, if_false]
      rw [joinLoop_cons_other _ _ _ _ _ hk2 ht2, ih]

theorem firstOnly_filter_eq_view (h : Header) :
    (h.filter (fun e => inNamespace e.1)).map firstOnly
      = (namespaceView h).map (fun p => (p.1, p.2.toList)) := by
  simp only [namespaceView, List.map_map]
  apply List.map_congr_left
  intro e _
  obtain ⟨key, val⟩ := e
  cases val <;> simp [firstOnly]

/-- The loop is a function of what the decoder can see. -/
theorem joinLoop_eq_of_view (h h2 : Header) (ids tags : TextMap)
    (hv : namespaceView h = namespaceView h2) : joinLoop h ids tags = joinLoop h2 ids tags := by
  rw [← joinLoop_filter h, ← joinLoop_filter h2, ← joinLoop_firstOnly,
    ← joinLoop_firstOnly (h2.filter _), firstOnly_filter_eq_view, firstOnly_filter_eq_view, hv]

theorem firstValid_eq_validFirst (val : List GoString) :
    firstValid val = validFirst val.head? := by
  cases val <;> rfl

theorem allValid_iff_view (h : Header) :
    (∀ e ∈ h, inNamespace e.1 = true → firstValid e.2 = true)
      ↔ ∀ p ∈ namespaceView h, validFirst p.2 = true := by
  constructor
  · intro hall p hp
    simp only [namespaceView, List.mem_map, List.mem_filter] at hp
    obtain ⟨e, ⟨he, hin⟩, rfl⟩ := hp
    rw [← firstValid_eq_validFirst]
    exact hall e he hin
  · intro hv e he hin
    rw [firstValid_eq_validFirst]
    exact hv (e.1, e.2.head?) (by
      simp only [namespaceView, List.mem_map, List.mem_filter]
      exact ⟨e, ⟨he, hin⟩, rfl⟩)

theorem nonempty_iff_view (h : Header) :
    (∀ e ∈ h, inNamespace e.1 = true → e.2 ≠ [])
      ↔ ∀ p ∈ namespaceView h, p.2 ≠ none := by
  constructor
  · intro hall p hp
    simp only [namespaceView, List.mem_map, List.mem_filter] at hp
    obtain ⟨e, ⟨he, hin⟩, rfl⟩ := hp
    have := hall e he hin
    cases hval : e.2 with
    | nil => exact absurd hval this
    | cons v0 rest => simp
  · intro hv e he hin hnil
    have := hv (e.1, e.2.head?) (by
      simp only [namespaceView, List.mem_map, List.mem_filter]
      exact ⟨e, ⟨he, hin⟩, rfl⟩)
    simp [hnil] at this

theorem entriesUnder_eq_view (pfx : GoString) (h : Header)
    (hp : ∀ k, HasPrefix k pfx = true → inNamespace k = true) :
    entriesUnder pfx h
      = ((namespaceView h).filter (fun p => HasPrefix p.1 pfx)).map
          (fun p => (TrimPrefix p.1 pfx, decodeEscapes (p.2.getD []))) := by
  induction h with
  | nil => rfl
  | cons e h ih =>
    obtain ⟨key, val⟩ := e
    by_cases hk : HasPrefix key pfx = true
    · have hin := hp key hk
      rw [entriesUnder_cons_of_hasPrefix _ _ _ _ hk, ih]
      cases val <;> simp [namespaceView, List.filter_cons, hin, hk]
    · have hk2 : HasPrefix key pfx = false := by simpa using hk
      rw [entriesUnder_cons_of_not _ _ _ _ hk2, ih]
      by_cases hin : inNamespace key = true
      · simp [namespaceView, List.filter_cons, hin, hk2]
      · simp [namespaceView, List.filter_cons, hin]

theorem entriesUnder_perm_of_view (pfx : GoString) (h h2 : Header)
    (hp : ∀ k, HasPrefix k pfx = true → inNamespace k = true)
    (hv : (namespaceView h).Perm (namespaceView h2)) :
    (entriesUnder pfx h).Perm (entriesUnder pfx h2) := by
  rw [entriesUnder_eq_view _ _ hp, entriesUnder_eq_view _ _ hp]
  exact (hv.filter _).map _

theorem inNamespace_of_contextID (k : GoString)
    (h : HasPrefix k ContextIDHTTPHeaderPrefix = true) : inNamespace k = true := by
  simp [inNamespace, h]

theorem inNamespace_of_tags (k : GoString)
    (h : HasPrefix k TagsHTTPHeaderPrefix = true) : inNamespace k = true := by
  simp [inNamespace, h]

/-- The three ways a run can end, by what the decoder can see. -/
theorem JoinTraceFromHeader_cases {Span E : Type} (operationName : GoString) (h : Header)
    (propagator : SpanPropagator Span E) :
    ((∀ e ∈ h, inNamespace e.1 = true → firstValid e.2 = true) →
        ∃ c, (JoinTraceFromHeader operationName h propagator).calls = [c])
      ∧ (¬ (∀ e ∈ h, inNamespace e.1 = true → firstValid e.2 = true) →
        (JoinTraceFromHeader operationName h propagator).calls = []
          ∧ ((∀ e ∈ h, inNamespace e.1 = true → e.2 ≠ []) →
            ∃ err, (JoinTraceFromHeader operationName h propagator).returned
              = some (none, some (.EscapeError err)))) := by
  constructor
  · intro hall
    have hd := joinLoop_done h [] [] hall
    rw [JoinTraceFromHeader, hd]
    exact ⟨_, rfl⟩
  · intro hnot
    constructor
    · cases hj : joinLoop h [] [] with
      | panicked => simp [JoinTraceFromHeader, hj]
      | failed err => simp [JoinTraceFromHeader, hj]
      | done a b => exact absurd (joinLoop_done_valid _ _ _ _ _ hj) hnot
    · intro hne
      have hbad : ∃ e ∈ h, inNamespace e.1 = true ∧ firstValid e.2 = false := by
        by_contra hcon
        apply hnot
        intro e he hin
        cases hfv : firstValid e.2 with
        | true => rfl
        | false => exact absurd ⟨e, he, hin, hfv⟩ hcon
      obtain ⟨err, hf, _⟩ := joinLoop_failed h [] [] hne hbad
      exact ⟨err, by simp [JoinTraceFromHeader, hf]⟩

/-- C17: the run of `JoinTraceFromHeader` depends only on the headers in the
two namespaces and their first values. Two header collections that show the
decoder the same such headers in the same visiting order give the same run;
if they show them in different orders, the propagator is called on one
exactly when it is called on the other, with identity maps that have the same
entries and attribute maps that have the same entries, and, every such header
having a value, the run ends with an `EscapeError` and no call on one exactly
when it does on the other. Other headers and later values play no part. -/
theorem JoinTraceFromHeader_noninterference {Span E : Type} (operationName : GoString)
    (h h2 : Header) (propagator : SpanPropagator Span E) :
    (namespaceView h = namespaceView h2 →
        JoinTraceFromHeader operationName h propagator
          = JoinTraceFromHeader operationName h2 propagator)
      ∧ (WF h → WF h2 → (namespaceView h).Perm (namespaceView h2) →
        ((JoinTraceFromHeader operationName h propagator).calls = []
            ↔ (JoinTraceFromHeader operationName h2 propagator).calls = [])
          ∧ (∀ c ∈ (JoinTraceFromHeader operationName h propagator).calls,
              ∀ c2 ∈ (JoinTraceFromHeader operationName h2 propagator).calls,
                c.operationName = c2.operationName
                  ∧ c.contextIDMap.Perm c2.contextIDMap
                  ∧ c.tagsMap.Perm c2.tagsMap
                  ∧ (∀ k, lookup k c.contextIDMap = lookup k c2.contextIDMap)
                  ∧ (∀ k, lookup k c.tagsMap = lookup k c2.tagsMap))
          ∧ ((∀ e ∈ h, inNamespace e.1 = true → e.2 ≠ []) →
              (((JoinTraceFromHeader operationName h propagator).calls = []
                  ∧ ∃ err, (JoinTraceFromHeader operationName h propagator).returned
                    = some (none, some (.EscapeError err)))
                ↔ ((JoinTraceFromHeader operationName h2 propagator).calls = []
                  ∧ ∃ err, (JoinTraceFromHeader operationName h2 propagator).returned
                    = some (none, some (.EscapeError err)))))) := by
  constructor
  · intro hv
    simp only [JoinTraceFromHeader, joinLoop_eq_of_view h h2 [] [] hv]
  · intro hwf hwf2 hv
    have hvalid : (∀ e ∈ h, inNamespace e.1 = true → firstValid e.2 = true)
        ↔ (∀ e ∈ h2, inNamespace e.1 = true → firstValid e.2 = true) := by
      rw [allValid_iff_view, allValid_iff_view]
      exact ⟨fun hh p hp => hh p ((List.Perm.mem_iff hv).2 hp),
        fun hh p hp => hh p ((List.Perm.mem_iff hv).1 hp)⟩
    have hnonempty : (∀ e ∈ h, inNamespace e.1 = true → e.2 ≠ [])
        ↔ (∀ e ∈ h2, inNamespace e.1 = true → e.2 ≠ []) := by
      rw [nonempty_iff_view, nonempty_iff_view]
      exact ⟨fun hh p hp => hh p ((List.Perm.mem_iff hv).2 hp),
        fun hh p hp => hh p ((List.Perm.mem_iff hv).1 hp)⟩
    have hnil : ∀ g : Header, ((JoinTraceFromHeader operationName g propagator).calls = []
        ↔ ¬ (∀ e ∈ g, inNamespace e.1 = true → firstValid e.2 = true)) := by
      intro g
      constructor
      · intro hc hall
        obtain ⟨c, hcc⟩ := (JoinTraceFromHeader_cases operationName g propagator).1 hall
        rw [hcc] at hc
        cases hc
      · intro hnot
        exact ((JoinTraceFromHeader_cases operationName g propagator).2 hnot).1
    refine ⟨?_, ?_, ?_⟩
    · rw [hnil h, hnil h2, hvalid]
    · intro c hc c2 hc2
      have hall : ∀ e ∈ h, inNamespace e.1 = true → firstValid e.2 = true := by
        by_contra hnot
        rw [(hnil h).2 hnot] at hc
        cases hc
      have hall2 := hvalid.1 hall
      rw [(JoinTraceFromHeader_run_of_valid operationName h propagator hwf hall).1,
        List.mem_singleton] at hc
      rw [(JoinTraceFromHeader_run_of_valid operationName h2 propagator hwf2 hall2).1,
        List.mem_singleton] at hc2
      subst hc
      subst hc2
      have pI := entriesUnder_perm_of_view ContextIDHTTPHeaderPrefix h h2
        inNamespace_of_contextID hv
      have pA := entriesUnder_perm_of_view TagsHTTPHeaderPrefix h h2 inNamespace_of_tags hv
      exact ⟨rfl, pI, pA, lookup_perm _ _ (wf_entriesUnder _ _ hwf) pI,
        lookup_perm _ _ (wf_entriesUnder _ _ hwf) pA⟩
    · intro hne
      have hne2 := hnonempty.1 hne
      constructor
      · rintro ⟨hc, _⟩
        have hnot := (hnil h).1 hc
        have hnot2 : ¬ (∀ e ∈ h2, inNamespace e.1 = true → firstValid e.2 = true) :=
          fun hh => hnot (hvalid.2 hh)
        have := (JoinTraceFromHeader_cases operationName h2 propagator).2 hnot2
        exact ⟨this.1, this.2 hne2⟩
      · rintro ⟨hc, _⟩
        have hnot2 := (hnil h2).1 hc
        have hnot : ¬ (∀ e ∈ h, inNamespace e.1 = true → firstValid e.2 = true) :=
          fun hh => hnot2 (hvalid.1 hh)
        have := (JoinTraceFromHeader_cases operationName h propagator).2 hnot
        exact ⟨this.1, this.2 hne⟩

/-- C17 at a concrete input: `sampleHeader` and `sampleHeaderVariant` show the
decoder the same header with the same first value; the second holds a
malformed later value and a malformed unrelated header. -/
theorem JoinTraceFromHeader_noninterference_witness :
    namespaceView sampleHeader = namespaceView sampleHeaderVariant
      ∧ JoinTraceFromHeader (str "op") sampleHeader lowerKeyPropagator
        = JoinTraceFromHeader (str "op") sampleHeaderVariant lowerKeyPropagator :=
  ⟨by decide,
    (JoinTraceFromHeader_noninterference (str "op") sampleHeader sampleHeaderVariant
      lowerKeyPropagator).1 (by decide)⟩

theorem QueryEscape_sample : QueryEscape (str "a b&c=%~") = str "a+b%26c%3D%25~" := by decide
theorem QueryUnescape_sample : QueryUnescape (str "a+b%26c%3D%25~") = .ok (str "a b&c=%~") := by decide
theorem QueryUnescape_bad_digit : QueryUnescape (str "ab%zz") = .error (str "%zz") := by decide
theorem QueryUnescape_truncated : QueryUnescape (str "ab%4") = .error (str "%4") := by decide
theorem CanonicalMIMEHeaderKey_lower :
    CanonicalMIMEHeaderKey (str "Open-Tracing-Context-Id-traceid")
      = str "Open-Tracing-Context-Id-Traceid" := by decide
theorem CanonicalMIMEHeaderKey_space :
    CanonicalMIMEHeaderKey (str "Open-Tracing-Context-Id-my key")
      = str "Open-Tracing-Context-Id-my key" := by decide

end OpenTracing
